import Mathlib

/-!
Verification of the scaffold fragmentation engine
(`scaffoldgraph/core/fragment.py`).

The molecular-graph data model, ring perception, sanitization,
connected-component splitting and canonicalization are provided by an
external chemistry engine (RDKit) and are out of the core's scope; they
are modelled here as explicit data (ring lists) and as a parameter
record `ChemEngine` of opaque capabilities, exactly the capabilities
enumerated in the design.  The fragmentation logic itself — the loops,
guards, traversals and edits of `fragment.py` — is translated
definition by definition.
-/

/-- Atom of a molecular graph: element number, aromatic flag,
implicit-hydrogen suppression flag, explicit-hydrogen count and
chirality tag (0 encodes CHI_UNSPECIFIED), mirroring the RDKit atom
properties the source reads and writes. -/
structure Atom where
  atomicNum : Nat
  isAromatic : Bool
  noImplicit : Bool
  numExplicitHs : Nat
  chiralTag : Nat
deriving DecidableEq, Repr

instance : Inhabited Atom := ⟨⟨0, false, false, 0, 0⟩⟩

/-- Bond of a molecular graph: stable bond index, the two endpoint atom
indices, and the bond order (2 encodes BondType.DOUBLE). -/
structure Bond where
  idx : Nat
  beginAtomIdx : Nat
  endAtomIdx : Nat
  bondType : Nat
deriving DecidableEq, Repr

/-- Molecular graph: atoms addressed by position, bonds carrying their
endpoint atom indices.  Ring perception data is kept separately (it is
engine-supplied, see `MolRing`). -/
structure Mol where
  atoms : List Atom
  bonds : List Bond
deriving DecidableEq, Repr

/-- A perceived ring (or ring system): the member atom indices `aix`
and member bond indices `bix`, as exposed by the engine's ring
perception on the scaffold molecule. -/
structure MolRing where
  aix : List Nat
  bix : List Nat
deriving DecidableEq, Repr

/-- Tag value for an unspecified chirality, as in the source import. -/
def CHI_UNSPECIFIED : Nat := 0

/-- Atom lookup by index (GetAtomWithIdx). -/
def atomAt (m : Mol) (i : Nat) : Atom := m.atoms.getD i default

/-- Bonds incident to atom `a` (atom.GetBonds). -/
def bondsOf (bonds : List Bond) (a : Nat) : List Bond :=
  bonds.filter (fun b => b.beginAtomIdx == a || b.endAtomIdx == a)

/-- Number of explicit neighbours of atom `a` (atom.GetDegree). -/
def atomDegree (bonds : List Bond) (a : Nat) : Nat :=
  (bondsOf bonds a).length

/-- The endpoint of bond `b` other than atom `a` (bond.GetOtherAtom). -/
def otherEnd (b : Bond) (a : Nat) : Nat :=
  if b.beginAtomIdx == a then b.endAtomIdx else b.beginAtomIdx

/-- Count of perceived rings containing atom `a`
(RingInfo.NumAtomRings): the Ring Set exposes, per atom, how many
rings contain it. -/
def numAtomRings (rgs : List MolRing) (a : Nat) : Nat :=
  (rgs.filter (fun r => a ∈ r.aix)).length

/-- Count of perceived rings containing bond index `bx`
(RingInfo.NumBondRings). -/
def numBondRings (rgs : List MolRing) (bx : Nat) : Nat :=
  (rgs.filter (fun r => bx ∈ r.bix)).length

/-- Insert into a set-as-list (Python set.add). -/
def insertNat (x : Nat) (l : List Nat) : List Nat :=
  if x ∈ l then l else x :: l

/-- First-occurrence deduplication of a list of indices (Python set
comprehension over indices). -/
def dedupNat (l : List Nat) : List Nat :=
  l.foldl (fun acc x => if x ∈ acc then acc else acc ++ [x]) []

/-- Atom property correction (`correct_atom_props`): if the atom is
aromatic and not carbon, set its explicit-hydrogen count to 1;
otherwise, if it suppresses implicit hydrogens or carries a chirality
tag, clear the suppression flag, reset explicit hydrogens to 0 and the
tag to unspecified; otherwise leave it unchanged. -/
def correct_atom_props (atom : Atom) : Atom :=
  if atom.isAromatic = true && atom.atomicNum != 6 then
    { atom with numExplicitHs := 1 }
  else if atom.noImplicit || atom.chiralTag != CHI_UNSPECIFIED then
    { atom with noImplicit := false, numExplicitHs := 0,
                chiralTag := CHI_UNSPECIFIED }
  else atom

/-- Apply `correct_atom_props` to the atom at index `i` of a molecule
(the source mutates the atom in place on the editable molecule). -/
def correctAtomAt (m : Mol) (i : Nat) : Mol :=
  { m with atoms := m.atoms.set i (correct_atom_props (atomAt m i)) }

/-- Number of neighbours of atom `a` that are not terminal (degree
different from 1), as counted at a branching point of the linker
traversal. -/
def nonTerminalBranches (bonds : List Bond) (a : Nat) : Nat :=
  ((bondsOf bonds a).filter
    (fun b => atomDegree bonds (otherEnd b a) != 1)).length

/-- State threaded through the linker traversal
(`collect_linker_atoms`): the editable molecule (whose atoms receive
property corrections), the visited bond indices, the accumulated
delete set, and the ring attachment points encountered. -/
structure LinkerState where
  mol : Mol
  visited : List Nat
  removeAtoms : List Nat
  ringAttachments : List Nat
deriving DecidableEq, Repr

/-- Recursive body of the Linker Collector (the inner `collect` of
`collect_linker_atoms`): process the pending bonds of the current
origin atom in order, never crossing a visited bond or a bond whose
ring-membership count is positive.  A terminal neighbour deletes both
atoms and corrects the origin; a pass-through neighbour deletes the
origin and recurses; a branching neighbour with fewer than three
non-terminal branches continues the deletion; a hub with three or more
non-terminal branches deletes the origin and corrects the hub only
when the connecting bond is not a double bond, and records the hub as
a ring attachment when it lies on a ring.  The `fuel` argument counts
traversal steps (one per examined bond, one per descent) and `none`
reports its exhaustion; `collectAux_total` proves the fuel supplied by
the wrapper can never be exhausted, so the wrapper always computes the
source's complete traversal. -/
def collectAux (rgs : List MolRing) :
    Nat → Nat → List Bond → LinkerState → Option LinkerState
  | _, _, [], st => some st
  | 0, _, _ :: _, _ => none
  | Nat.succ f, origin, b :: rest, st =>
    if b.idx ∈ st.visited ∨ 0 < numBondRings rgs b.idx then
      collectAux rgs f origin rest st
    else
      let other := otherEnd b origin
      let odeg := atomDegree st.mol.bonds other
      if odeg = 1 then
        collectAux rgs f origin rest
          { st with mol := correctAtomAt st.mol origin,
                    removeAtoms :=
                      insertNat other (insertNat origin st.removeAtoms),
                    visited := insertNat b.idx st.visited }
      else if odeg = 2 then
        match collectAux rgs f other (bondsOf st.mol.bonds other)
            { st with removeAtoms := insertNat origin st.removeAtoms,
                      visited := insertNat b.idx st.visited } with
        | none => none
        | some st2 => collectAux rgs f origin rest st2
      else if 2 < odeg then
        if nonTerminalBranches st.mol.bonds other < 3 then
          match collectAux rgs f other (bondsOf st.mol.bonds other)
              { st with removeAtoms := insertNat origin st.removeAtoms,
                        visited := insertNat b.idx st.visited } with
          | none => none
          | some st2 => collectAux rgs f origin rest st2
        else
          let st1 :=
            if b.bondType = 2 then st
            else
              { st with mol := correctAtomAt st.mol other,
                        removeAtoms := insertNat origin st.removeAtoms,
                        visited := insertNat b.idx st.visited }
          if 0 < numAtomRings rgs other then
            collectAux rgs f origin rest
              { st1 with ringAttachments :=
                           insertNat other st1.ringAttachments }
          else collectAux rgs f origin rest st1
      else collectAux rgs f origin rest st

/-- Linker Collector (`collect_linker_atoms`): starting from `origin`,
traverse outward along non-ring bonds collecting the atoms to delete
into the supplied set; on completion drop the origin from the set if
requested, and record the origin as a ring attachment when it lies on
a ring.  Returns the final traversal state (its `removeAtoms` is the
augmented delete set, its `ringAttachments` the attachment points).
The fallback of `getD` is dead code: `collectAux_total` proves the
supplied fuel can never be exhausted, since each descent visits a
fresh bond and the fuel exceeds the number of bonds. -/
def collect_linker_atoms (m : Mol) (rgs : List MolRing) (origin : Nat)
    (removeAtoms : List Nat) (includeOrigin : Bool := true) : LinkerState :=
  let st0 : LinkerState := ⟨m, [], removeAtoms, []⟩
  let st1 := (collectAux rgs ((m.bonds.length + 1) * (m.bonds.length + 1))
               origin (bondsOf m.bonds origin) st0).getD st0
  let st2 :=
    if includeOrigin = false then
      { st1 with removeAtoms := st1.removeAtoms.filter (fun a => a ≠ origin) }
    else st1
  if 0 < numAtomRings rgs origin then
    { st2 with ringAttachments := insertNat origin st2.ringAttachments }
  else st2

/-- Scaffold value.  Modelled from the spec: the `Scaffold` class
(`scaffoldgraph/core/scaffold.py`) is not part of the supplied source;
per the design it wraps one molecular graph together with its
lazily-derived Ring Set and Ring-System Set, equality and hashing are
by the engine's canonical structural key, and it carries an optional
provenance field `removed_ring_idx` holding the index of the removed
ring. -/
structure Scaffold where
  mol : Mol
  key : String
  rings : List MolRing
  ringSystems : List MolRing
  removedRingIdx : Option Nat := none
deriving DecidableEq, Repr

/-- Capabilities consumed from the external chemistry engine, exactly
the ones the design enumerates: canonical structural key, ring
perception, ring-system grouping, selective (partial) sanitization
signalling failure as a recoverable error, connected-component
splitting, Murcko-scaffold extraction, generic-scaffold conversion and
stereochemistry removal. -/
structure ChemEngine where
  canonicalKey : Mol → String
  perceiveRings : Mol → List MolRing
  perceiveRingSystems : Mol → List MolRing
  selectiveSanitize : Mol → Except String Mol
  getMolFrags : Mol → List Mol
  getScaffoldForMol : Mol → Mol
  makeScaffoldGeneric : Mol → Mol
  removeStereochemistry : Mol → Mol

/-- Scaffold construction from a molecule (Scaffold(f)): the wrapped
graph plus the engine-derived canonical key, rings and ring systems;
no provenance. -/
def mkScaffold (engine : ChemEngine) (m : Mol) : Scaffold :=
  { mol := m, key := engine.canonicalKey m,
    rings := engine.perceiveRings m,
    ringSystems := engine.perceiveRingSystems m,
    removedRingIdx := none }

/-- Membership in a scaffold collection under Scaffold equality, which
is equality of canonical keys (Python set membership on Scaffold). -/
def keyMem (s : Scaffold) (l : List Scaffold) : Bool :=
  l.any (fun q => q.key == s.key)

/-- Insert a scaffold into a set-as-list, identifying scaffolds with
equal canonical keys (Python set.add on Scaffold). -/
def insertScaffold (s : Scaffold) (l : List Scaffold) : List Scaffold :=
  if keyMem s l then l else l ++ [s]

/-- Collect a list of scaffolds into a set-as-list deduplicated by
Scaffold equality (Python set comprehension over Scaffold). -/
def dedupByKey (l : List Scaffold) : List Scaffold :=
  l.foldl (fun acc s => insertScaffold s acc) []

/-- Candidate Validator (`get_scaffold_frags`): partially sanitize the
edited, possibly-disconnected graph; a sanitization failure is caught
and yields the empty set (never escalated); on success the graph is
split into connected components and each is wrapped as a Scaffold,
the results deduplicated by Scaffold equality. -/
def get_scaffold_frags (engine : ChemEngine) (frag : Mol) : List Scaffold :=
  match engine.selectiveSanitize frag with
  | Except.error _ => []
  | Except.ok m =>
      dedupByKey ((engine.getMolFrags m).map (mkScaffold engine))

/-- Atom-collection loop of the Ring Fragmenter (the first loop of
`MurckoRingFragmenter.fragment`): for every atom of the ring, if it
belongs to exactly one ring then either invoke the Linker Collector
(degree above 2) or mark the atom itself for removal; a fusion atom is
left in place but property-corrected.  Returns the accumulated delete
set and the edited molecule. -/
def ringRemoveAtoms (rgs : List MolRing) (ring : MolRing) (edit0 : Mol) :
    List Nat × Mol :=
  ring.aix.foldl
    (fun acc index =>
      if numAtomRings rgs index = 1 then
        if 2 < atomDegree acc.2.bonds index then
          let st := collect_linker_atoms acc.2 rgs index acc.1 true
          (st.removeAtoms, st.mol)
        else (insertNat index acc.1, acc.2)
      else (acc.1, correctAtomAt acc.2 index))
    ([], edit0)

/-- Bond lookup by stable bond index (GetBondWithIdx). -/
def findBond (bonds : List Bond) (bx : Nat) : Option Bond :=
  bonds.find? (fun b => b.idx == bx)

/-- Bond-collection loop of the Ring Fragmenter: for every ring bond
belonging to exactly one ring whose endpoints are both unmarked, mark
the bond itself for removal (severing the ring without deleting shared
fusion atoms) and property-correct both endpoints.  The Python source
iterates a set of bond indices; the iteration order is immaterial
because the per-bond decisions only read `removeAtoms`. -/
def ringRemoveBonds (rgs : List MolRing) (ring : MolRing)
    (removeAtoms : List Nat) (edit0 : Mol) : List (Nat × Nat) × Mol :=
  (dedupNat (ring.bix.filter (fun x => numBondRings rgs x == 1))).foldl
    (fun acc bix =>
      match findBond acc.2.bonds bix with
      | none => acc
      | some bond =>
        let bx := bond.beginAtomIdx
        let by_ := bond.endAtomIdx
        if bx ∉ removeAtoms ∧ by_ ∉ removeAtoms then
          (acc.1 ++ [(bx, by_)], correctAtomAt (correctAtomAt acc.2 bx) by_)
        else acc)
    ([], edit0)

/-- Set the order of the bond with stable index `bx`
(bond.SetBondType). -/
def setBondType (m : Mol) (bx : Nat) (t : Nat) : Mol :=
  { m with bonds := m.bonds.map (fun b =>
      if b.idx == bx then { b with bondType := t } else b) }

/-- Scheme 4 of the scaffold tree rules (the optional small-ring rule
of `MurckoRingFragmenter.fragment`): when enabled, if the ring has
exactly three atoms, exactly one of them neither hydrogen nor carbon,
and exactly one of its bonds is shared with another ring, convert that
shared bond into a double bond. -/
def applyScheme4 (useScheme4 : Bool) (rgs : List MolRing) (ring : MolRing)
    (scafMol : Mol) (edit : Mol) : Mol :=
  if useScheme4 ∧ ring.aix.length = 3 then
    let atomicNums := ring.aix.map (fun i => (atomAt scafMol i).atomicNum)
    if (atomicNums.filter (fun a => a != 1 && a != 6)).length = 1 then
      match dedupNat (ring.bix.filter (fun x => 1 < numBondRings rgs x)) with
      | [s] => setBondType edit s 2
      | _ => edit
    else edit
  else edit

/-- Remove the bond joining atoms `x` and `y` (RWMol.RemoveBond). -/
def removeBondMol (m : Mol) (x y : Nat) : Mol :=
  { m with bonds := m.bonds.filter (fun b =>
      !((b.beginAtomIdx == x && b.endAtomIdx == y) ||
        (b.beginAtomIdx == y && b.endAtomIdx == x))) }

/-- Remove the atom at index `i` (RWMol.RemoveAtom): the atom is
deleted, its incident bonds are dropped, and higher atom indices shift
down by one, as in the positional representation of the source. -/
def removeAtomMol (m : Mol) (i : Nat) : Mol :=
  { atoms := m.atoms.eraseIdx i,
    bonds := (m.bonds.filter
        (fun b => !(b.beginAtomIdx == i || b.endAtomIdx == i))).map
      (fun b =>
        { b with
          beginAtomIdx :=
            if i < b.beginAtomIdx then b.beginAtomIdx - 1 else b.beginAtomIdx,
          endAtomIdx :=
            if i < b.endAtomIdx then b.endAtomIdx - 1 else b.endAtomIdx }) }

/-- Insert into a descending-sorted list. -/
def insertDesc (x : Nat) : List Nat → List Nat
  | [] => [x]
  | y :: ys => if y ≤ x then x :: y :: ys else y :: insertDesc x ys

/-- Sort indices in decreasing order (sorted(remove_atoms,
reverse=True)): atoms must be removed from the highest index down so
that pending removals keep their identity. -/
def sortDesc (l : List Nat) : List Nat := l.foldr insertDesc []

/-- Apply the marked bond removals, then the marked atom removals in
decreasing index order (the removal block of
`MurckoRingFragmenter.fragment`). -/
def applyRemovals (edit : Mol) (removeBonds : List (Nat × Nat))
    (removeAtoms : List Nat) : Mol :=
  let e1 := removeBonds.foldl (fun e p => removeBondMol e p.1 p.2) edit
  (sortDesc removeAtoms).foldl removeAtomMol e1

/-- Complete per-ring edit pipeline of the Ring Fragmenter: collect
removable atoms, collect removable bonds, apply the optional Scheme 4
rule, then apply all removals to the private editable copy. -/
def ringEdit (useScheme4 : Bool) (rgs : List MolRing) (scafMol : Mol)
    (ring : MolRing) (edit0 : Mol) : Mol :=
  let ra := ringRemoveAtoms rgs ring edit0
  let rb := ringRemoveBonds rgs ring ra.1 ra.2
  let edit3 := applyScheme4 useScheme4 rgs ring scafMol rb.2
  applyRemovals edit3 rb.1 ra.1

/-- Per-ring step of the Ring Fragmenter: edit a private copy of the
scaffold molecule for ring `ring` (at position `rix`), validate the
edited graph, and keep only the resulting scaffolds whose ring count
equals the input ring count minus one, tagging their provenance. -/
def fragmentOneRing (engine : ChemEngine) (useScheme4 : Bool)
    (scaffold : Scaffold) (rix : Nat) (ring : MolRing) : List Scaffold :=
  let edit := ringEdit useScheme4 scaffold.rings scaffold.mol ring scaffold.mol
  (get_scaffold_frags engine edit).filterMap
    (fun parent =>
      if parent.rings.length = scaffold.rings.length - 1 then
        some { parent with removedRingIdx := some rix }
      else none)

/-- Ring Fragmenter (`MurckoRingFragmenter.fragment`): loop over all
rings of the scaffold in stored order, fragment each on a private
editable copy, and concatenate the kept parent scaffolds. -/
def ringFragment (engine : ChemEngine) (useScheme4 : Bool)
    (scaffold : Scaffold) : List Scaffold :=
  scaffold.rings.enum.foldl
    (fun parents rr =>
      parents ++ fragmentOneRing engine useScheme4 scaffold rr.1 rr.2)
    []

/-- Atom-collection loop of the Ring-System Fragmenter
(`MurckoRingSystemFragmenter.fragment`): for every atom of the
selected ring system, a peripheral atom (member of exactly one ring)
of degree above 2 invokes the Linker Collector, a peripheral atom of
degree at most 2 is marked for removal, and a fusion atom is marked
for removal unconditionally (the whole system is excised). -/
def rsRemoveAtoms (rgs : List MolRing) (ring : MolRing) (edit0 : Mol) :
    List Nat × Mol :=
  ring.aix.foldl
    (fun acc index =>
      if numAtomRings rgs index = 1 then
        if 2 < atomDegree acc.2.bonds index then
          let st := collect_linker_atoms acc.2 rgs index acc.1 true
          (st.removeAtoms, st.mol)
        else (insertNat index acc.1, acc.2)
      else (insertNat index acc.1, acc.2))
    ([], edit0)

/-- Per-ring-system edit pipeline: collect removable atoms and remove
them in decreasing index order.  There is no bond-only removal step
and no small-ring rule at ring-system granularity. -/
def rsEdit (rgs : List MolRing) (ring : MolRing) (edit0 : Mol) : Mol :=
  let ra := rsRemoveAtoms rgs ring edit0
  (sortDesc ra.1).foldl removeAtomMol ra.2

/-- Per-ring-system step of the Ring-System Fragmenter: edit a private
copy, validate it, and keep only the scaffolds whose ring-system count
equals the input ring-system count minus one, tagging provenance. -/
def fragmentOneRingSystem (engine : ChemEngine) (scaffold : Scaffold)
    (rix : Nat) (ring : MolRing) : List Scaffold :=
  let edit := rsEdit scaffold.rings ring scaffold.mol
  (get_scaffold_frags engine edit).filterMap
    (fun parent =>
      if parent.ringSystems.length = scaffold.ringSystems.length - 1 then
        some { parent with removedRingIdx := some rix }
      else none)

/-- Ring-System Fragmenter (`MurckoRingSystemFragmenter.fragment`): if
the input has exactly one ring system, return the empty list
immediately; otherwise loop over all ring systems and concatenate the
kept parent scaffolds. -/
def ringSystemFragment (engine : ChemEngine) (scaffold : Scaffold) :
    List Scaffold :=
  if scaffold.ringSystems.length = 1 then []
  else
    scaffold.ringSystems.enum.foldl
      (fun parents rr =>
        parents ++ fragmentOneRingSystem engine scaffold rr.1 rr.2)
      []

/-- Murcko scaffold of an input molecule (`get_murcko_scaffold`):
engine-provided extraction, optionally followed by generic-scaffold
conversion. -/
def get_murcko_scaffold (engine : ChemEngine) (mol : Mol)
    (generic : Bool) : Mol :=
  let murcko := engine.getScaffoldForMol mol
  if generic then engine.makeScaffoldGeneric murcko else murcko

/-- Next-hierarchy fragments of a Murcko scaffold
(`get_next_murcko_fragments`): run the chosen fragmenter once and
return the molecules of the deduplicated parent set. -/
def get_next_murcko_fragments (engine : ChemEngine)
    (murcko_scaffold : Mol) (breakFusedRings : Bool) : List Mol :=
  let fragmenter :=
    if breakFusedRings then ringFragment engine false
    else ringSystemFragment engine
  (dedupByKey (fragmenter (mkScaffold engine murcko_scaffold))).map
    Scaffold.mol

/-- Hierarchy Enumerator core (`recursive_generation`): process a work
list of candidate parents against the discovered set `parents`; a
candidate already discovered (by Scaffold equality) is skipped,
otherwise it is added and its own fragments are enumerated recursively
before the remaining work continues.  The `fuel` argument bounds the
recursion depth; `none` reports fuel exhaustion.  The hierarchy
enumeration theorems prove that fuel exceeding the scaffold's ring
(or ring-system) count is never exhausted, which is exactly the
well-foundedness of the source's recursion. -/
def recursive_generation (F : Scaffold → List Scaffold) :
    Nat → List Scaffold → List Scaffold → Option (List Scaffold)
  | _, [], parents => some parents
  | 0, _ :: _, _ => none
  | Nat.succ f, p :: rest, parents =>
    if keyMem p parents then recursive_generation F (f + 1) rest parents
    else
      match recursive_generation F f (F p) (p :: parents) with
      | none => none
      | some parents2 => recursive_generation F (f + 1) rest parents2
termination_by fuel work _ => (fuel, work.length)

/-- Discovered-scaffold set of the full hierarchy enumeration (the
`parents` set of `get_all_murcko_fragments` after
`recursive_generation(scaffold)` completes): seeded with the input
scaffold, then extended recursively by the chosen fragmenter.  The
fuel supplied exceeds the input's ring (or ring-system) count, which
the enumeration theorems prove sufficient; the fallback branch is
unreachable. -/
def murckoHierarchy (engine : ChemEngine) (breakFusedRings : Bool)
    (scaffold : Scaffold) : List Scaffold :=
  let fragmenter :=
    if breakFusedRings then ringFragment engine false
    else ringSystemFragment engine
  let fuel :=
    (if breakFusedRings then scaffold.rings.length
     else scaffold.ringSystems.length) + 1
  match recursive_generation fragmenter fuel (fragmenter scaffold)
          [scaffold] with
  | some parents => parents
  | none => [scaffold]

/-- Full hierarchy enumeration (`get_all_murcko_fragments`): extract
the Murcko scaffold of the molecule, remove stereochemistry, wrap it
as the seed Scaffold, recursively enumerate every distinct scaffold
reachable by peripheral removal, and return their molecules. -/
def get_all_murcko_fragments (engine : ChemEngine)
    (breakFusedRings : Bool) (mol : Mol) : List Mol :=
  let m := engine.removeStereochemistry (get_murcko_scaffold engine mol false)
  (murckoHierarchy engine breakFusedRings (mkScaffold engine m)).map
    Scaffold.mol

/-- Heap of molecule objects, for the frame-effect statements: the
caller's molecule and every editable copy live in one store, and
RDKit-style in-place edits mutate one slot.  Per-molecule operations
are modelled as pure `Mol` functions applied at the edited slot. -/
structure MolStore where
  mols : List Mol
deriving DecidableEq, Repr

/-- Read the molecule stored at reference `r`. -/
def storeRead (st : MolStore) (r : Nat) : Mol := st.mols.getD r ⟨[], []⟩

/-- Overwrite the molecule stored at reference `r` (an in-place edit
of that object). -/
def storeWrite (st : MolStore) (r : Nat) (m : Mol) : MolStore :=
  ⟨st.mols.set r m⟩

/-- Allocate a fresh molecule object (RWMol(mol) creates a new
editable copy) and return its reference. -/
def storeAlloc (st : MolStore) (m : Mol) : MolStore × Nat :=
  (⟨st.mols ++ [m]⟩, st.mols.length)

/-- A scaffold whose molecule lives in a store slot; the ring data is
the scaffold's own derived state. -/
structure ScaffoldRef where
  molRef : Nat
  rings : List MolRing
  ringSystems : List MolRing
deriving DecidableEq, Repr

/-- Store-level Ring Fragmenter: for each ring, allocate a private
editable copy of the caller's molecule, apply the per-ring edit
pipeline in place on that copy, and read the result for validation.
Every write targets the freshly allocated slot only. -/
def storeFragmentRing (engine : ChemEngine) (useScheme4 : Bool)
    (sc : ScaffoldRef) (st : MolStore) : List Scaffold × MolStore :=
  sc.rings.enum.foldl
    (fun acc rr =>
      let scafMol := storeRead acc.2 sc.molRef
      let al := storeAlloc acc.2 scafMol
      let st2 := storeWrite al.1 al.2
        (ringEdit useScheme4 sc.rings scafMol rr.2 (storeRead al.1 al.2))
      let ps := (get_scaffold_frags engine (storeRead st2 al.2)).filterMap
        (fun parent =>
          if parent.rings.length = sc.rings.length - 1 then
            some { parent with removedRingIdx := some rr.1 }
          else none)
      (acc.1 ++ ps, st2))
    ([], st)

/-- Store-level Ring-System Fragmenter: as `storeFragmentRing` but per
ring system, with the single-ring-system early return. -/
def storeFragmentRingSystem (engine : ChemEngine) (sc : ScaffoldRef)
    (st : MolStore) : List Scaffold × MolStore :=
  if sc.ringSystems.length = 1 then ([], st)
  else
    sc.ringSystems.enum.foldl
      (fun acc rr =>
        let al := storeAlloc acc.2 (storeRead acc.2 sc.molRef)
        let st2 := storeWrite al.1 al.2
          (rsEdit sc.rings rr.2 (storeRead al.1 al.2))
        let ps := (get_scaffold_frags engine (storeRead st2 al.2)).filterMap
          (fun parent =>
            if parent.ringSystems.length = sc.ringSystems.length - 1 then
              some { parent with removedRingIdx := some rr.1 }
            else none)
        (acc.1 ++ ps, st2))
      ([], st)

/-- Store-level fragment entry: either Fragmenter run against the
caller's stored molecule. -/
def storeFragment (engine : ChemEngine) (useScheme4 breakFusedRings : Bool)
    (sc : ScaffoldRef) (st : MolStore) : List Scaffold × MolStore :=
  if breakFusedRings then storeFragmentRing engine useScheme4 sc st
  else storeFragmentRingSystem engine sc st

/-- Two bonds join the same pair of atoms (in either orientation). -/
def sameEnds (b1 b2 : Bond) : Prop :=
  (b1.beginAtomIdx = b2.beginAtomIdx ∧ b1.endAtomIdx = b2.endAtomIdx) ∨
  (b1.beginAtomIdx = b2.endAtomIdx ∧ b1.endAtomIdx = b2.beginAtomIdx)

instance : DecidablePred fun p : Bond × Bond => sameEnds p.1 p.2 :=
  fun _ => by unfold sameEnds; infer_instance

/-- Bond `b` is incident to atom `a`. -/
def bondIncident (b : Bond) (a : Nat) : Prop :=
  b.beginAtomIdx = a ∨ b.endAtomIdx = a

/-- Well-formedness of the engine-supplied ring perception over a bond
list, the guarantees the design assigns to the external engine: no
self-bonds, no parallel bonds, every ring atom carries at least two
distinct incident ring bonds, ring-bond endpoints are ring atoms, ring
bond indices refer to existing bonds, and the bonds of a ring join
atoms of that ring. -/
def WellFormed (bonds : List Bond) (rgs : List MolRing) : Prop :=
  (∀ b ∈ bonds, b.beginAtomIdx ≠ b.endAtomIdx) ∧
  List.Pairwise (fun b1 b2 => ¬ sameEnds b1 b2) bonds ∧
  (∀ r ∈ rgs, ∀ a ∈ r.aix, ∃ b1 ∈ bonds, ∃ b2 ∈ bonds, b1 ≠ b2 ∧
    bondIncident b1 a ∧ bondIncident b2 a ∧
    0 < numBondRings rgs b1.idx ∧ 0 < numBondRings rgs b2.idx) ∧
  (∀ b ∈ bonds, 0 < numBondRings rgs b.idx →
    0 < numAtomRings rgs b.beginAtomIdx ∧
    0 < numAtomRings rgs b.endAtomIdx) ∧
  (∀ r ∈ rgs, ∀ bx ∈ r.bix, ∃ b ∈ bonds, b.idx = bx) ∧
  (∀ r ∈ rgs, ∀ bx ∈ r.bix, ∀ b ∈ bonds, b.idx = bx →
    b.beginAtomIdx ∈ r.aix ∧ b.endAtomIdx ∈ r.aix)

instance (bonds : List Bond) (rgs : List MolRing) :
    Decidable (WellFormed bonds rgs) := by
  unfold WellFormed sameEnds bondIncident; infer_instance

/-- A single carbon atom value for concrete test molecules. -/
def carbonAtom : Atom := ⟨6, false, false, 0, 0⟩

/-- A single oxygen atom value for concrete test molecules. -/
def oxygenAtom : Atom := ⟨8, false, false, 0, 0⟩

/-- A concrete chemistry engine used to instantiate the theorems on
closed inputs: the canonical key is the atom count, ring perception
returns no rings, sanitization always succeeds, and the component
splitter returns the molecule itself. -/
def wEngine : ChemEngine :=
  { canonicalKey := fun m => toString m.atoms.length,
    perceiveRings := fun _ => [],
    perceiveRingSystems := fun _ => [],
    selectiveSanitize := Except.ok,
    getMolFrags := fun m => [m],
    getScaffoldForMol := id,
    makeScaffoldGeneric := id,
    removeStereochemistry := id }

/-- A concrete engine whose selective sanitization always fails. -/
def wEngineFail : ChemEngine :=
  { wEngine with
    selectiveSanitize := fun _ => Except.error "kekulization failed" }

/-- Concrete three-membered carbocycle (cyclopropane-like test
molecule). -/
def triMol : Mol :=
  ⟨[carbonAtom, carbonAtom, carbonAtom],
   [⟨0, 0, 1, 1⟩, ⟨1, 1, 2, 1⟩, ⟨2, 2, 0, 1⟩]⟩

/-- The single ring of `triMol`. -/
def triRing : MolRing := ⟨[0, 1, 2], [0, 1, 2]⟩

/-- Concrete one-ring scaffold over `triMol`. -/
def scaffoldW1 : Scaffold := ⟨triMol, "tri", [triRing], [triRing], none⟩

/-- The parent produced when the single ring of `scaffoldW1` is
removed: the empty molecule with provenance ring index 0. -/
def parentW1 : Scaffold := ⟨⟨[], []⟩, "0", [], [], some 0⟩

/-- Concrete scaffold with two rings forming one ring system. -/
def scaffoldW2 : Scaffold := ⟨triMol, "w2", [triRing, triRing], [triRing], none⟩

/-- Concrete molecule with an exocyclic double bond into a hub atom:
atom 0 is the traversal origin, atom 1 a hub with three non-terminal
branches (two into a triangle ring 2-3-4, one into the chain 5-6), and
bond 0 joins 0 to 1 with a double bond. -/
def hubMol : Mol :=
  ⟨[carbonAtom, carbonAtom, carbonAtom, carbonAtom, carbonAtom,
    carbonAtom, carbonAtom],
   [⟨0, 0, 1, 2⟩, ⟨1, 1, 2, 1⟩, ⟨2, 1, 3, 1⟩, ⟨3, 2, 3, 1⟩,
    ⟨4, 3, 4, 1⟩, ⟨5, 2, 4, 1⟩, ⟨6, 1, 5, 1⟩, ⟨7, 5, 6, 1⟩]⟩

/-- Ring perception for `hubMol`: the triangle 2-3-4. -/
def hubRings : List MolRing := [⟨[2, 3, 4], [3, 4, 5]⟩]

/-- Variant of `hubMol` whose hub-connecting bond is a single bond. -/
def hubMolS : Mol :=
  ⟨hubMol.atoms,
   [⟨0, 0, 1, 1⟩, ⟨1, 1, 2, 1⟩, ⟨2, 1, 3, 1⟩, ⟨3, 2, 3, 1⟩,
    ⟨4, 3, 4, 1⟩, ⟨5, 2, 4, 1⟩, ⟨6, 1, 5, 1⟩, ⟨7, 5, 6, 1⟩]⟩

/-- Concrete molecule with a triangle ring 0-1-2 and a two-atom linker
0-3-4 hanging from ring atom 0. -/
def linkMol : Mol :=
  ⟨[carbonAtom, carbonAtom, carbonAtom, carbonAtom, carbonAtom],
   [⟨0, 0, 1, 1⟩, ⟨1, 1, 2, 1⟩, ⟨2, 2, 0, 1⟩, ⟨3, 0, 3, 1⟩, ⟨4, 3, 4, 1⟩]⟩

/-- Ring perception for `linkMol`: the triangle 0-1-2. -/
def linkRings : List MolRing := [⟨[0, 1, 2], [0, 1, 2]⟩]

/-- Concrete epoxide-like molecule: a six-membered carbocycle 0..5
fused along bond 0 (atoms 0-1) to a three-membered ring containing the
oxygen atom 6. -/
def epoxMol : Mol :=
  ⟨[carbonAtom, carbonAtom, carbonAtom, carbonAtom, carbonAtom,
    carbonAtom, oxygenAtom],
   [⟨0, 0, 1, 1⟩, ⟨1, 1, 2, 1⟩, ⟨2, 2, 3, 1⟩, ⟨3, 3, 4, 1⟩,
    ⟨4, 4, 5, 1⟩, ⟨5, 5, 0, 1⟩, ⟨6, 0, 6, 1⟩, ⟨7, 1, 6, 1⟩]⟩

/-- The three-membered heteroatom ring of `epoxMol`. -/
def epoxRing : MolRing := ⟨[0, 1, 6], [0, 6, 7]⟩

/-- Ring perception for `epoxMol`: the carbocycle and the
three-membered ring, fused at bond 0. -/
def epoxRings : List MolRing := [⟨[0, 1, 2, 3, 4, 5], [0, 1, 2, 3, 4, 5]⟩, epoxRing]

/-- Concrete aromatic nitrogen atom. -/
def aromaticN : Atom := ⟨7, true, false, 0, 0⟩

/-- Concrete scaffold reference for the store-level fragmenters: the
caller's molecule is `triMol` in slot 0. -/
def scW9 : ScaffoldRef := ⟨0, [triRing], [triRing]⟩

/-- Concrete one-slot store holding the caller's molecule. -/
def stW9 : MolStore := ⟨[triMol]⟩

theorem mem_foldl_append {α β : Type} (f : β → List α) (l : List β)
    (init : List α) (x : α) :
    (x ∈ l.foldl (fun acc b => acc ++ f b) init) ↔
      x ∈ init ∨ ∃ b ∈ l, x ∈ f b := by
  induction l generalizing init with
  | nil => simp
  | cons b bs ih =>
      simp only [List.foldl_cons, ih, List.mem_append, List.mem_cons]
      constructor
      · rintro (⟨h | h⟩ | ⟨c, hc, hx⟩)
        · exact Or.inl h
        · exact Or.inr ⟨b, Or.inl rfl, h⟩
        · exact Or.inr ⟨c, Or.inr hc, hx⟩
      · rintro (h | ⟨c, rfl | hc, hx⟩)
        · exact Or.inl (Or.inl h)
        · exact Or.inl (Or.inr hx)
        · exact Or.inr ⟨c, hc, hx⟩

theorem mem_fragmentOneRing_rings (engine : ChemEngine) (useScheme4 : Bool)
    (scaffold : Scaffold) (rix : Nat) (ring : MolRing) (p : Scaffold)
    (hp : p ∈ fragmentOneRing engine useScheme4 scaffold rix ring) :
    p.rings.length = scaffold.rings.length - 1 := by
  unfold fragmentOneRing at hp
  rcases List.mem_filterMap.mp hp with ⟨q, hq, he⟩
  by_cases hc : q.rings.length = scaffold.rings.length - 1
  · rw [if_pos hc] at he
    cases he
    exact hc
  · rw [if_neg hc] at he
    cases he

/-- C1: every Scaffold in the list returned by the Ring Fragmenter's
fragment operation has a ring count exactly one less than the input
scaffold's ring count (the per-ring step keeps only parents whose ring
count equals the input ring count minus one). -/
theorem claim_C1_ring_fragmenter_count (engine : ChemEngine)
    (useScheme4 : Bool) (scaffold : Scaffold) (p : Scaffold)
    (hp : p ∈ ringFragment engine useScheme4 scaffold) :
    p.rings.length = scaffold.rings.length - 1 := by
  unfold ringFragment at hp
  rcases (mem_foldl_append _ _ _ _).mp hp with h | ⟨rr, _, hmem⟩
  · cases h
  · exact mem_fragmentOneRing_rings engine useScheme4 scaffold rr.1 rr.2 p hmem

theorem claim_C1_witness :
    parentW1 ∈ ringFragment wEngine false scaffoldW1 ∧
      parentW1.rings.length = scaffoldW1.rings.length - 1 :=
  ⟨by decide,
   claim_C1_ring_fragmenter_count wEngine false scaffoldW1 parentW1 (by decide)⟩

/-- C2: the Ring-System Fragmenter returns an empty list, without
raising, whenever the input scaffold has exactly one ring system,
regardless of its ring count. -/
theorem claim_C2_single_ring_system (engine : ChemEngine)
    (scaffold : Scaffold) (h : scaffold.ringSystems.length = 1) :
    ringSystemFragment engine scaffold = [] := by
  simp [ringSystemFragment, h]

theorem claim_C2_witness :
    scaffoldW2.rings.length = 2 ∧ scaffoldW2.ringSystems.length = 1 ∧
      ringSystemFragment wEngine scaffoldW2 = [] :=
  ⟨rfl, rfl, claim_C2_single_ring_system wEngine scaffoldW2 rfl⟩

/-- C7: the Atom Property Corrector sets the explicit-hydrogen count
to 1 on an aromatic non-carbon atom; otherwise, when the atom
suppresses implicit hydrogens or carries a defined chirality tag, it
clears the suppression flag, resets the explicit-hydrogen count to 0
and the chirality tag to unspecified; in all other cases it leaves the
atom unchanged. -/
theorem claim_C7_correct_atom_props (a : Atom) :
    (a.isAromatic = true ∧ a.atomicNum ≠ 6 →
      correct_atom_props a = { a with numExplicitHs := 1 }) ∧
    (¬(a.isAromatic = true ∧ a.atomicNum ≠ 6) →
      (a.noImplicit = true ∨ a.chiralTag ≠ CHI_UNSPECIFIED) →
      correct_atom_props a =
        { a with noImplicit := false, numExplicitHs := 0,
                 chiralTag := CHI_UNSPECIFIED }) ∧
    (¬(a.isAromatic = true ∧ a.atomicNum ≠ 6) →
      ¬(a.noImplicit = true ∨ a.chiralTag ≠ CHI_UNSPECIFIED) →
      correct_atom_props a = a) := by
  unfold correct_atom_props
  refine ⟨fun h => ?_, fun h1 h2 => ?_, fun h1 h2 => ?_⟩
  · rw [if_pos]
    simp [h.1, h.2]
  · rw [if_neg, if_pos]
    · rcases h2 with h2 | h2
      · simp [h2]
      · simp [h2]
    · simp only [Bool.and_eq_true, bne_iff_ne, not_and_or] at h1 ⊢
      rcases h1 with h1 | h1
      · exact Or.inl (by simp [h1])
      · exact Or.inr (by simpa using h1)
  · rw [if_neg, if_neg]
    · simp only [Bool.or_eq_true, bne_iff_ne, not_or] at h2 ⊢
      push_neg at h2
      simp [h2.1, h2.2]
    · simp only [Bool.and_eq_true, bne_iff_ne, not_and_or] at h1 ⊢
      rcases h1 with h1 | h1
      · exact Or.inl (by simp [h1])
      · exact Or.inr (by simpa using h1)

theorem claim_C7_witness :
    correct_atom_props aromaticN = { aromaticN with numExplicitHs := 1 } :=
  (claim_C7_correct_atom_props aromaticN).1 (by decide)

theorem mem_insertScaffold (s : Scaffold) (l : List Scaffold) (x : Scaffold)
    (hx : x ∈ insertScaffold s l) : x ∈ l ∨ x = s := by
  unfold insertScaffold at hx
  split at hx
  · exact Or.inl hx
  · rcases List.mem_append.mp hx with h | h
    · exact Or.inl h
    · simp at h
      exact Or.inr h

theorem insertScaffold_mem_of_mem (s : Scaffold) (l : List Scaffold)
    (x : Scaffold) (hx : x ∈ l) : x ∈ insertScaffold s l := by
  unfold insertScaffold
  split
  · exact hx
  · exact List.mem_append.mpr (Or.inl hx)

theorem insertScaffold_keys_nodup (s : Scaffold) (l : List Scaffold)
    (h : (l.map Scaffold.key).Nodup) :
    ((insertScaffold s l).map Scaffold.key).Nodup := by
  unfold insertScaffold keyMem
  split
  · exact h
  · rename_i hmem
    rw [List.map_append, List.map_singleton, List.nodup_append]
    refine ⟨h, List.nodup_singleton _, ?_⟩
    intro k hk hk2
    simp only [List.mem_singleton] at hk2
    subst hk2
    rcases List.mem_map.mp hk with ⟨q, hq, hqk⟩
    exact hmem (List.any_eq_true.mpr ⟨q, hq, by simp [hqk]⟩)

theorem insertScaffold_key_covered (s : Scaffold) (l : List Scaffold) :
    ∃ t ∈ insertScaffold s l, t.key = s.key := by
  unfold insertScaffold
  split
  · rename_i hmem
    unfold keyMem at hmem
    rcases List.any_eq_true.mp hmem with ⟨q, hq, hqk⟩
    exact ⟨q, hq, by simpa using hqk⟩
  · exact ⟨s, List.mem_append.mpr (Or.inr (by simp)), rfl⟩

theorem dedup_fold_spec (l : List Scaffold) :
    ∀ acc : List Scaffold, (acc.map Scaffold.key).Nodup →
      ((l.foldl (fun acc s => insertScaffold s acc) acc).map
          Scaffold.key).Nodup ∧
      (∀ x ∈ l.foldl (fun acc s => insertScaffold s acc) acc,
        x ∈ acc ∨ x ∈ l) ∧
      (∀ x ∈ l, ∃ t ∈ l.foldl (fun acc s => insertScaffold s acc) acc,
        t.key = x.key) ∧
      (∀ x ∈ acc, x ∈ l.foldl (fun acc s => insertScaffold s acc) acc) := by
  induction l with
  | nil => intro acc h; exact ⟨h, fun x hx => Or.inl hx, by simp, fun x hx => hx⟩
  | cons s rest ih =>
      intro acc h
      have hnodup := insertScaffold_keys_nodup s acc h
      obtain ⟨ih1, ih2, ih3, ih4⟩ := ih (insertScaffold s acc) hnodup
      refine ⟨ih1, ?_, ?_, ?_⟩
      · intro x hx
        rcases ih2 x hx with hx' | hx'
        · rcases mem_insertScaffold s acc x hx' with h' | h'
          · exact Or.inl h'
          · exact Or.inr (by simp [h'])
        · exact Or.inr (List.mem_cons_of_mem s hx')
      · intro x hx
        rcases List.mem_cons.mp hx with rfl | hx'
        · rcases insertScaffold_key_covered x acc with ⟨t, ht, htk⟩
          exact ⟨t, ih4 t ht, htk⟩
        · exact ih3 x hx'
      · intro x hx
        exact ih4 x (insertScaffold_mem_of_mem s acc x hx)

/-- C3: the Candidate Validator catches a sanitization failure and
returns the empty set, never escalating to the caller; on success it
returns one Scaffold per connected component, deduplicated by Scaffold
equality (equal canonical keys are identified, every component is
represented by key, and every result is some component's scaffold). -/
theorem claim_C3_validator (engine : ChemEngine) (frag : Mol) :
    (∀ e, engine.selectiveSanitize frag = Except.error e →
      get_scaffold_frags engine frag = []) ∧
    (∀ m, engine.selectiveSanitize frag = Except.ok m →
      ((get_scaffold_frags engine frag).map Scaffold.key).Nodup ∧
      (∀ s ∈ get_scaffold_frags engine frag,
        ∃ f ∈ engine.getMolFrags m, s = mkScaffold engine f) ∧
      (∀ f ∈ engine.getMolFrags m,
        ∃ s ∈ get_scaffold_frags engine frag,
          s.key = (mkScaffold engine f).key)) := by
  constructor
  · intro e he
    unfold get_scaffold_frags
    rw [he]
  · intro m hm
    have hres : get_scaffold_frags engine frag =
        dedupByKey ((engine.getMolFrags m).map (mkScaffold engine)) := by
      unfold get_scaffold_frags
      rw [hm]
    obtain ⟨h1, h2, h3, _⟩ :=
      dedup_fold_spec ((engine.getMolFrags m).map (mkScaffold engine)) []
        (by simp)
    rw [hres]
    refine ⟨h1, ?_, ?_⟩
    · intro s hs
      rcases h2 s hs with h | h
      · cases h
      · rcases List.mem_map.mp h with ⟨f, hf, rfl⟩
        exact ⟨f, hf, rfl⟩
    · intro f hf
      exact h3 (mkScaffold engine f) (List.mem_map.mpr ⟨f, hf, rfl⟩)

theorem claim_C3_witness :
    get_scaffold_frags wEngineFail triMol = [] :=
  (claim_C3_validator wEngineFail triMol).1 "kekulization failed" rfl

theorem collectAux_nil (rgs : List MolRing) (fuel origin : Nat)
    (st : LinkerState) : collectAux rgs fuel origin [] st = some st := by
  rw [collectAux]

/-- C4 (amended): when the linker traversal reaches a hub neighbour
(degree above 2 with at least three non-terminal branches) over an
unvisited non-ring bond, then: if the connecting bond is not a double
bond, the current atom is added to the delete set, the hub is
property-corrected and the bond is marked visited; if the bond is a
double bond, the state is left unchanged — in particular the current
atom is not deleted and, contrary to the original claim, the bond is
NOT marked visited; in both cases, if the hub lies on a ring, it is
added to the ring-attachment set. -/
theorem claim_C4_hub_step (rgs : List MolRing) (f origin : Nat) (b : Bond)
    (st : LinkerState)
    (hnv : b.idx ∉ st.visited) (hnr : numBondRings rgs b.idx = 0)
    (hdeg : 2 < atomDegree st.mol.bonds (otherEnd b origin))
    (hnt : 3 ≤ nonTerminalBranches st.mol.bonds (otherEnd b origin)) :
    (b.bondType ≠ 2 → collectAux rgs (f + 1) origin [b] st =
      some (if 0 < numAtomRings rgs (otherEnd b origin) then
        { st with mol := correctAtomAt st.mol (otherEnd b origin),
                  removeAtoms := insertNat origin st.removeAtoms,
                  visited := insertNat b.idx st.visited,
                  ringAttachments :=
                    insertNat (otherEnd b origin) st.ringAttachments }
      else
        { st with mol := correctAtomAt st.mol (otherEnd b origin),
                  removeAtoms := insertNat origin st.removeAtoms,
                  visited := insertNat b.idx st.visited })) ∧
    (b.bondType = 2 → collectAux rgs (f + 1) origin [b] st =
      some (if 0 < numAtomRings rgs (otherEnd b origin) then
        { st with ringAttachments :=
                    insertNat (otherEnd b origin) st.ringAttachments }
      else st)) := by
  have hguard : ¬(b.idx ∈ st.visited ∨ 0 < numBondRings rgs b.idx) := by
    rintro (h | h)
    · exact hnv h
    · omega
  have h1 : atomDegree st.mol.bonds (otherEnd b origin) ≠ 1 := by omega
  have h2 : atomDegree st.mol.bonds (otherEnd b origin) ≠ 2 := by omega
  have h3 : ¬(nonTerminalBranches st.mol.bonds (otherEnd b origin) < 3) := by
    omega
  constructor
  · intro hdbl
    rw [collectAux]
    simp only [if_neg hguard, if_neg h1, if_neg h2, if_pos hdeg, if_neg h3,
      if_neg hdbl]
    by_cases hring : 0 < numAtomRings rgs (otherEnd b origin)
    · rw [if_pos hring, if_pos hring, collectAux_nil]
    · rw [if_neg hring, if_neg hring, collectAux_nil]
  · intro hdbl
    rw [collectAux]
    simp only [if_neg hguard, if_neg h1, if_neg h2, if_pos hdeg, if_neg h3,
      if_pos hdbl]
    by_cases hring : 0 < numAtomRings rgs (otherEnd b origin)
    · rw [if_pos hring, if_pos hring, collectAux_nil]
    · rw [if_neg hring, if_neg hring, collectAux_nil]

/-- C4 counterexample: on `hubMol` the traversal from atom 0 reaches
the hub atom 1 over the double bond with index 0; the original claim
asserts that this connecting bond is marked visited in both cases, but
the traversal leaves the visited set empty. -/
theorem claim_C4_counterexample :
    2 < atomDegree hubMol.bonds (otherEnd ⟨0, 0, 1, 2⟩ 0) ∧
    3 ≤ nonTerminalBranches hubMol.bonds (otherEnd ⟨0, 0, 1, 2⟩ 0) ∧
    Bond.bondType ⟨0, 0, 1, 2⟩ = 2 ∧
    (collect_linker_atoms hubMol hubRings 0 [] true).visited = [] := by
  decide

theorem claim_C4_witness :
    collectAux hubRings 8 0 [⟨0, 0, 1, 1⟩] ⟨hubMolS, [], [], []⟩ =
      some { mol := correctAtomAt hubMolS 1, visited := insertNat 0 [],
             removeAtoms := insertNat 0 [], ringAttachments := [] } := by
  have h := (claim_C4_hub_step hubRings 7 0 ⟨0, 0, 1, 1⟩
    ⟨hubMolS, [], [], []⟩ (by decide) (by decide) (by decide) (by decide)).1
    (by decide)
  rw [h]
  decide

theorem mem_fragmentOneRingSystem_systems (engine : ChemEngine)
    (scaffold : Scaffold) (rix : Nat) (ring : MolRing) (p : Scaffold)
    (hp : p ∈ fragmentOneRingSystem engine scaffold rix ring) :
    p.ringSystems.length = scaffold.ringSystems.length - 1 := by
  unfold fragmentOneRingSystem at hp
  rcases List.mem_filterMap.mp hp with ⟨q, hq, he⟩
  by_cases hc : q.ringSystems.length = scaffold.ringSystems.length - 1
  · rw [if_pos hc] at he
    cases he
    exact hc
  · rw [if_neg hc] at he
    cases he

theorem ringFragment_rings_lt (engine : ChemEngine) (useScheme4 : Bool)
    (scaffold : Scaffold) (p : Scaffold)
    (hp : p ∈ ringFragment engine useScheme4 scaffold) :
    p.rings.length < scaffold.rings.length := by
  have hcount : p.rings.length = scaffold.rings.length - 1 := by
    unfold ringFragment at hp
    rcases (mem_foldl_append _ _ _ _).mp hp with h | ⟨rr, _, hmem⟩
    · cases h
    · exact mem_fragmentOneRing_rings engine useScheme4 scaffold rr.1 rr.2 p
        hmem
  have hne : scaffold.rings ≠ [] := by
    intro h0
    unfold ringFragment at hp
    rw [h0] at hp
    simp [List.enum] at hp
  have hpos : 0 < scaffold.rings.length := List.length_pos.mpr hne
  omega

theorem ringSystemFragment_systems_lt (engine : ChemEngine)
    (scaffold : Scaffold) (p : Scaffold)
    (hp : p ∈ ringSystemFragment engine scaffold) :
    p.ringSystems.length < scaffold.ringSystems.length := by
  unfold ringSystemFragment at hp
  by_cases h1 : scaffold.ringSystems.length = 1
  · rw [if_pos h1] at hp
    cases hp
  · rw [if_neg h1] at hp
    have hcount : p.ringSystems.length = scaffold.ringSystems.length - 1 := by
      rcases (mem_foldl_append _ _ _ _).mp hp with h | ⟨rr, _, hmem⟩
      · cases h
      · exact mem_fragmentOneRingSystem_systems engine scaffold rr.1 rr.2 p
          hmem
    have hne : scaffold.ringSystems ≠ [] := by
      intro h0
      rw [h0] at hp
      simp [List.enum] at hp
    have hpos : 0 < scaffold.ringSystems.length := List.length_pos.mpr hne
    omega

theorem recursive_generation_total (F : Scaffold → List Scaffold)
    (mu : Scaffold → Nat) (hF : ∀ s p, p ∈ F s → mu p < mu s) :
    ∀ fuel (work parents : List Scaffold), (∀ p ∈ work, mu p < fuel) →
      ∃ l, recursive_generation F fuel work parents = some l := by
  intro fuel
  induction fuel with
  | zero =>
      intro work parents hw
      cases work with
      | nil => exact ⟨parents, by rw [recursive_generation]⟩
      | cons p rest => exact absurd (hw p (List.mem_cons_self p rest)) (by omega)
  | succ f ih =>
      intro work
      induction work with
      | nil => intro parents _; exact ⟨parents, by rw [recursive_generation]⟩
      | cons p rest ihw =>
          intro parents hw
          rw [recursive_generation]
          by_cases hk : keyMem p parents
          · rw [if_pos hk]
            exact ihw parents (fun q hq => hw q (List.mem_cons_of_mem p hq))
          · rw [if_neg hk]
            have hp : mu p < f + 1 := hw p (List.mem_cons_self p rest)
            obtain ⟨l1, hl1⟩ := ih (F p) (p :: parents)
              (fun q hq => by have := hF p q hq; omega)
            rw [hl1]
            exact ihw l1 (fun q hq => hw q (List.mem_cons_of_mem p hq))

theorem recursive_generation_supset (F : Scaffold → List Scaffold) :
    ∀ fuel (work parents l : List Scaffold),
      recursive_generation F fuel work parents = some l →
      ∀ x ∈ parents, x ∈ l := by
  intro fuel
  induction fuel with
  | zero =>
      intro work parents l h x hx
      cases work with
      | nil =>
          rw [recursive_generation] at h
          cases h
          exact hx
      | cons p rest => rw [recursive_generation] at h; cases h
  | succ f ih =>
      intro work
      induction work with
      | nil =>
          intro parents l h x hx
          rw [recursive_generation] at h
          cases h
          exact hx
      | cons p rest ihw =>
          intro parents l h x hx
          rw [recursive_generation] at h
          by_cases hk : keyMem p parents
          · rw [if_pos hk] at h
            exact ihw parents l h x hx
          · rw [if_neg hk] at h
            cases hrec : recursive_generation F f (F p) (p :: parents) with
            | none => rw [hrec] at h; cases h
            | some parents2 =>
                rw [hrec] at h
                exact ihw parents2 l h x
                  (ih (F p) (p :: parents) parents2 hrec x
                    (List.mem_cons_of_mem p hx))

theorem recursive_generation_nodup (F : Scaffold → List Scaffold) :
    ∀ fuel (work parents l : List Scaffold),
      (parents.map Scaffold.key).Nodup →
      recursive_generation F fuel work parents = some l →
      (l.map Scaffold.key).Nodup := by
  intro fuel
  induction fuel with
  | zero =>
      intro work parents l hn h
      cases work with
      | nil =>
          rw [recursive_generation] at h
          cases h
          exact hn
      | cons p rest => rw [recursive_generation] at h; cases h
  | succ f ih =>
      intro work
      induction work with
      | nil =>
          intro parents l hn h
          rw [recursive_generation] at h
          cases h
          exact hn
      | cons p rest ihw =>
          intro parents l hn h
          rw [recursive_generation] at h
          by_cases hk : keyMem p parents
          · rw [if_pos hk] at h
            exact ihw parents l hn h
          · rw [if_neg hk] at h
            cases hrec : recursive_generation F f (F p) (p :: parents) with
            | none => rw [hrec] at h; cases h
            | some parents2 =>
                rw [hrec] at h
                refine ihw parents2 l ?_ h
                refine ih (F p) (p :: parents) parents2 ?_ hrec
                rw [List.map_cons, List.nodup_cons]
                refine ⟨?_, hn⟩
                intro hmem
                rcases List.mem_map.mp hmem with ⟨q, hq, hqk⟩
                exact hk (List.any_eq_true.mpr ⟨q, hq, by simp [hqk]⟩)

/-- C8: full hierarchy enumeration terminates and returns a finite set
of distinct Scaffolds: with fuel exceeding the seed's ring count (ring
fragmenter) or ring-system count (ring-system fragmenter) the
recursion never exhausts its fuel — this is the well-foundedness
argument, each fragmentation strictly decreasing the measure and each
recursive step visiting only scaffolds not already discovered — and
the discovered set is duplicate-free under Scaffold equality. -/
theorem claim_C8_enumeration (engine : ChemEngine) (breakFusedRings : Bool)
    (scaffold : Scaffold) :
    (∃ l, recursive_generation
        (if breakFusedRings then ringFragment engine false
         else ringSystemFragment engine)
        ((if breakFusedRings then scaffold.rings.length
          else scaffold.ringSystems.length) + 1)
        ((if breakFusedRings then ringFragment engine false
          else ringSystemFragment engine) scaffold)
        [scaffold] = some l) ∧
    ((murckoHierarchy engine breakFusedRings scaffold).map
        Scaffold.key).Nodup := by
  cases breakFusedRings with
  | true =>
      obtain ⟨l, hl⟩ := recursive_generation_total (ringFragment engine false)
        (fun s => s.rings.length)
        (fun s p hp => ringFragment_rings_lt engine false s p hp)
        (scaffold.rings.length + 1) (ringFragment engine false scaffold)
        [scaffold]
        (fun p hp => by
          show p.rings.length < scaffold.rings.length + 1
          have := ringFragment_rings_lt engine false scaffold p hp
          omega)
      have hnodup := recursive_generation_nodup (ringFragment engine false)
        (scaffold.rings.length + 1) (ringFragment engine false scaffold)
        [scaffold] l (by simp) hl
      refine ⟨⟨l, by simpa using hl⟩, ?_⟩
      simp only [murckoHierarchy, if_true]
      rw [hl]
      exact hnodup
  | false =>
      obtain ⟨l, hl⟩ := recursive_generation_total (ringSystemFragment engine)
        (fun s => s.ringSystems.length)
        (fun s p hp => ringSystemFragment_systems_lt engine s p hp)
        (scaffold.ringSystems.length + 1) (ringSystemFragment engine scaffold)
        [scaffold]
        (fun p hp => by
          show p.ringSystems.length < scaffold.ringSystems.length + 1
          have := ringSystemFragment_systems_lt engine scaffold p hp
          omega)
      have hnodup := recursive_generation_nodup (ringSystemFragment engine)
        (scaffold.ringSystems.length + 1) (ringSystemFragment engine scaffold)
        [scaffold] l (by simp) hl
      refine ⟨⟨l, by simpa using hl⟩, ?_⟩
      simp only [murckoHierarchy, Bool.false_eq_true, if_false]
      rw [hl]
      exact hnodup

/-- C10: the list returned by the full hierarchy enumeration entry
point always contains the seed Murcko scaffold of the input molecule:
the discovered set is seeded with it and nothing ever removes it. -/
theorem claim_C10_contains_seed (engine : ChemEngine)
    (breakFusedRings : Bool) (mol : Mol) :
    (mkScaffold engine (engine.removeStereochemistry
        (get_murcko_scaffold engine mol false))).mol ∈
      get_all_murcko_fragments engine breakFusedRings mol := by
  unfold get_all_murcko_fragments
  refine List.mem_map.mpr
    ⟨mkScaffold engine (engine.removeStereochemistry
        (get_murcko_scaffold engine mol false)), ?_, rfl⟩
  generalize mkScaffold engine (engine.removeStereochemistry
      (get_murcko_scaffold engine mol false)) = sc
  unfold murckoHierarchy
  cases breakFusedRings with
  | true =>
      simp only [if_true]
      cases hrec : recursive_generation (ringFragment engine false)
          (sc.rings.length + 1) (ringFragment engine false sc) [sc] with
      | none => simp
      | some l =>
          simp only []
          exact recursive_generation_supset (ringFragment engine false)
            (sc.rings.length + 1) (ringFragment engine false sc) [sc] l hrec
            sc (by simp)
  | false =>
      simp only [Bool.false_eq_true, if_false]
      cases hrec : recursive_generation (ringSystemFragment engine)
          (sc.ringSystems.length + 1) (ringSystemFragment engine sc) [sc] with
      | none => simp
      | some l =>
          simp only []
          exact recursive_generation_supset (ringSystemFragment engine)
            (sc.ringSystems.length + 1) (ringSystemFragment engine sc) [sc] l
            hrec sc (by simp)

theorem allocWrite_getElem (st : MolStore) (m mm : Mol) (r : Nat)
    (hr : r < st.mols.length) :
    (storeWrite (storeAlloc st m).1 (storeAlloc st m).2 mm).mols[r]? =
      st.mols[r]? := by
  unfold storeAlloc storeWrite
  have hne : st.mols.length ≠ r := by omega
  rw [List.getElem?_set_ne hne, List.getElem?_append, if_pos hr]

theorem allocWrite_length (st : MolStore) (m mm : Mol) :
    st.mols.length ≤
      (storeWrite (storeAlloc st m).1 (storeAlloc st m).2 mm).mols.length := by
  unfold storeAlloc storeWrite
  simp

theorem storeFragmentRing_frame (engine : ChemEngine) (useScheme4 : Bool)
    (sc : ScaffoldRef) (st : MolStore) (r : Nat) (hr : r < st.mols.length) :
    (storeFragmentRing engine useScheme4 sc st).2.mols[r]? = st.mols[r]? := by
  unfold storeFragmentRing
  have key : ∀ (l : List (Nat × MolRing)) (acc : List Scaffold × MolStore),
      st.mols.length ≤ acc.2.mols.length →
      acc.2.mols[r]? = st.mols[r]? →
      st.mols.length ≤
        (l.foldl (fun acc rr =>
          let scafMol := storeRead acc.2 sc.molRef
          let al := storeAlloc acc.2 scafMol
          let st2 := storeWrite al.1 al.2
            (ringEdit useScheme4 sc.rings scafMol rr.2 (storeRead al.1 al.2))
          let ps :=
            (get_scaffold_frags engine (storeRead st2 al.2)).filterMap
              (fun parent =>
                if parent.rings.length = sc.rings.length - 1 then
                  some { parent with removedRingIdx := some rr.1 }
                else none)
          (acc.1 ++ ps, st2)) acc).2.mols.length ∧
      (l.foldl (fun acc rr =>
          let scafMol := storeRead acc.2 sc.molRef
          let al := storeAlloc acc.2 scafMol
          let st2 := storeWrite al.1 al.2
            (ringEdit useScheme4 sc.rings scafMol rr.2 (storeRead al.1 al.2))
          let ps :=
            (get_scaffold_frags engine (storeRead st2 al.2)).filterMap
              (fun parent =>
                if parent.rings.length = sc.rings.length - 1 then
                  some { parent with removedRingIdx := some rr.1 }
                else none)
          (acc.1 ++ ps, st2)) acc).2.mols[r]? = st.mols[r]? := by
    intro l
    induction l with
    | nil => intro acc h1 h2; exact ⟨h1, h2⟩
    | cons rr rest ih =>
        intro acc h1 h2
        simp only [List.foldl_cons]
        refine ih _ ?_ ?_
        · exact le_trans h1 (allocWrite_length acc.2 _ _)
        · rw [allocWrite_getElem acc.2 _ _ r (lt_of_lt_of_le hr h1)]
          exact h2
  exact (key sc.rings.enum ([], st) (le_refl _) rfl).2

theorem storeFragmentRingSystem_frame (engine : ChemEngine)
    (sc : ScaffoldRef) (st : MolStore) (r : Nat) (hr : r < st.mols.length) :
    (storeFragmentRingSystem engine sc st).2.mols[r]? = st.mols[r]? := by
  unfold storeFragmentRingSystem
  split
  · rfl
  · have key : ∀ (l : List (Nat × MolRing)) (acc : List Scaffold × MolStore),
        st.mols.length ≤ acc.2.mols.length →
        acc.2.mols[r]? = st.mols[r]? →
        st.mols.length ≤
          (l.foldl (fun acc rr =>
            let al := storeAlloc acc.2 (storeRead acc.2 sc.molRef)
            let st2 := storeWrite al.1 al.2
              (rsEdit sc.rings rr.2 (storeRead al.1 al.2))
            let ps :=
              (get_scaffold_frags engine (storeRead st2 al.2)).filterMap
                (fun parent =>
                  if parent.ringSystems.length = sc.ringSystems.length - 1 then
                    some { parent with removedRingIdx := some rr.1 }
                  else none)
            (acc.1 ++ ps, st2)) acc).2.mols.length ∧
        (l.foldl (fun acc rr =>
            let al := storeAlloc acc.2 (storeRead acc.2 sc.molRef)
            let st2 := storeWrite al.1 al.2
              (rsEdit sc.rings rr.2 (storeRead al.1 al.2))
            let ps :=
              (get_scaffold_frags engine (storeRead st2 al.2)).filterMap
                (fun parent =>
                  if parent.ringSystems.length = sc.ringSystems.length - 1 then
                    some { parent with removedRingIdx := some rr.1 }
                  else none)
            (acc.1 ++ ps, st2)) acc).2.mols[r]? = st.mols[r]? := by
      intro l
      induction l with
      | nil => intro acc h1 h2; exact ⟨h1, h2⟩
      | cons rr rest ih =>
          intro acc h1 h2
          simp only [List.foldl_cons]
          refine ih _ ?_ ?_
          · exact le_trans h1 (allocWrite_length acc.2 _ _)
          · rw [allocWrite_getElem acc.2 _ _ r (lt_of_lt_of_le hr h1)]
            exact h2
    exact (key sc.ringSystems.enum ([], st) (le_refl _) rfl).2

/-- C9: the caller's original molecular graph is unchanged by a call
to either Fragmenter: every edit is applied to a private editable copy
allocated per ring or per ring system, so every store slot present
before the call — in particular the scaffold's own molecule — holds
the same molecule afterwards. -/
theorem claim_C9_frame (engine : ChemEngine)
    (useScheme4 breakFusedRings : Bool) (sc : ScaffoldRef) (st : MolStore)
    (r : Nat) (hr : r < st.mols.length) :
    (storeFragment engine useScheme4 breakFusedRings sc st).2.mols[r]? =
      st.mols[r]? := by
  unfold storeFragment
  split
  · exact storeFragmentRing_frame engine useScheme4 sc st r hr
  · exact storeFragmentRingSystem_frame engine sc st r hr

theorem claim_C9_witness :
    (storeFragment wEngine false true scW9 stW9).2.mols[0]? =
      stW9.mols[0]? :=
  claim_C9_frame wEngine false true scW9 stW9 0 (by decide)

theorem mem_insertNat (x : Nat) (l : List Nat) (a : Nat)
    (ha : a ∈ insertNat x l) : a = x ∨ a ∈ l := by
  unfold insertNat at ha
  split at ha
  · exact Or.inr ha
  · rcases List.mem_cons.mp ha with h | h
    · exact Or.inl h
    · exact Or.inr h

theorem correctAtomAt_bonds (m : Mol) (i : Nat) :
    (correctAtomAt m i).bonds = m.bonds := rfl

theorem bondsOf_mem (bonds : List Bond) (a : Nat) (c : Bond)
    (hc : c ∈ bondsOf bonds a) : c ∈ bonds ∧ bondIncident c a := by
  unfold bondsOf at hc
  have h := List.mem_filter.mp hc
  refine ⟨h.1, ?_⟩
  rcases Bool.or_eq_true _ _ |>.mp h.2 with h2 | h2
  · exact Or.inl (by simpa using h2)
  · exact Or.inr (by simpa using h2)

theorem mem_bondsOf (bonds : List Bond) (a : Nat) (c : Bond)
    (hc : c ∈ bonds) (hinc : bondIncident c a) : c ∈ bondsOf bonds a := by
  unfold bondsOf
  refine List.mem_filter.mpr ⟨hc, ?_⟩
  rcases hinc with h | h
  · exact Bool.or_eq_true _ _ |>.mpr (Or.inl (by simp [h]))
  · exact Bool.or_eq_true _ _ |>.mpr (Or.inr (by simp [h]))

theorem numAtomRings_pos_elim (rgs : List MolRing) (a : Nat)
    (h : 0 < numAtomRings rgs a) : ∃ r ∈ rgs, a ∈ r.aix := by
  unfold numAtomRings at h
  rcases List.exists_mem_of_length_pos h with ⟨r, hr⟩
  have h2 := List.mem_filter.mp hr
  exact ⟨r, h2.1, by simpa using h2.2⟩

theorem two_mem_filter_length {α : Type} [DecidableEq α] (l : List α)
    (p : α → Bool) (a b : α) (ha : a ∈ l) (hb : b ∈ l) (hab : a ≠ b)
    (hpa : p a = true) (hpb : p b = true) : 2 ≤ (l.filter p).length := by
  have haf : a ∈ l.filter p := List.mem_filter.mpr ⟨ha, hpa⟩
  have hbf : b ∈ l.filter p := List.mem_filter.mpr ⟨hb, hpb⟩
  have hsub : ({a, b} : Finset α) ⊆ (l.filter p).toFinset := by
    intro x hx
    rcases Finset.mem_insert.mp hx with rfl | hx
    · exact List.mem_toFinset.mpr haf
    · rw [Finset.mem_singleton] at hx
      subst hx
      exact List.mem_toFinset.mpr hbf
  have hcard : ({a, b} : Finset α).card = 2 := by
    rw [Finset.card_insert_of_not_mem (by simp [hab]), Finset.card_singleton]
  calc 2 = ({a, b} : Finset α).card := hcard.symm
    _ ≤ (l.filter p).toFinset.card := Finset.card_le_card hsub
    _ ≤ (l.filter p).length := (l.filter p).toFinset_card_le

theorem three_mem_filter_length {α : Type} [DecidableEq α] (l : List α)
    (p : α → Bool) (a b c : α) (ha : a ∈ l) (hb : b ∈ l) (hc : c ∈ l)
    (hab : a ≠ b) (hac : a ≠ c) (hbc : b ≠ c)
    (hpa : p a = true) (hpb : p b = true) (hpc : p c = true) :
    3 ≤ (l.filter p).length := by
  have haf : a ∈ l.filter p := List.mem_filter.mpr ⟨ha, hpa⟩
  have hbf : b ∈ l.filter p := List.mem_filter.mpr ⟨hb, hpb⟩
  have hcf : c ∈ l.filter p := List.mem_filter.mpr ⟨hc, hpc⟩
  have hsub : ({a, b, c} : Finset α) ⊆ (l.filter p).toFinset := by
    intro x hx
    rcases Finset.mem_insert.mp hx with rfl | hx
    · exact List.mem_toFinset.mpr haf
    · rcases Finset.mem_insert.mp hx with rfl | hx
      · exact List.mem_toFinset.mpr hbf
      · rw [Finset.mem_singleton] at hx
        subst hx
        exact List.mem_toFinset.mpr hcf
  have hcard : ({a, b, c} : Finset α).card = 3 := by
    rw [Finset.card_insert_of_not_mem (by simp [hab, hac]),
        Finset.card_insert_of_not_mem (by simp [hbc]),
        Finset.card_singleton]
  calc 3 = ({a, b, c} : Finset α).card := hcard.symm
    _ ≤ (l.filter p).toFinset.card := Finset.card_le_card hsub
    _ ≤ (l.filter p).length := (l.filter p).toFinset_card_le

theorem ring_atom_two_ring_bonds (bonds : List Bond) (rgs : List MolRing)
    (hwf : WellFormed bonds rgs) (a : Nat) (h : 0 < numAtomRings rgs a) :
    ∃ b1 ∈ bonds, ∃ b2 ∈ bonds, b1 ≠ b2 ∧
      bondIncident b1 a ∧ bondIncident b2 a ∧
      0 < numBondRings rgs b1.idx ∧ 0 < numBondRings rgs b2.idx := by
  rcases numAtomRings_pos_elim rgs a h with ⟨r, hr, har⟩
  exact hwf.2.2.1 r hr a har

theorem ring_atom_degree_ge_two (bonds : List Bond) (rgs : List MolRing)
    (hwf : WellFormed bonds rgs) (a : Nat) (h : 0 < numAtomRings rgs a) :
    2 ≤ atomDegree bonds a := by
  rcases ring_atom_two_ring_bonds bonds rgs hwf a h with
    ⟨b1, hb1, b2, hb2, hne, hi1, hi2, _, _⟩
  unfold atomDegree bondsOf
  refine two_mem_filter_length bonds _ b1 b2 hb1 hb2 hne ?_ ?_
  · rcases hi1 with h1 | h1
    · simp [h1]
    · simp [h1]
  · rcases hi2 with h1 | h1
    · simp [h1]
    · simp [h1]

theorem otherEnd_cases (b : Bond) (origin : Nat)
    (hinc : bondIncident b origin) :
    (b.beginAtomIdx = origin ∧ b.endAtomIdx = otherEnd b origin) ∨
    (b.beginAtomIdx = otherEnd b origin ∧ b.endAtomIdx = origin) := by
  unfold otherEnd
  by_cases h : b.beginAtomIdx = origin
  · rw [if_pos (by simp [h])]
    exact Or.inl ⟨h, rfl⟩
  · rw [if_neg (by simp [h])]
    rcases hinc with h2 | h2
    · exact absurd h2 h
    · exact Or.inr ⟨rfl, h2⟩

theorem otherEnd_ne (b : Bond) (origin : Nat)
    (hself : b.beginAtomIdx ≠ b.endAtomIdx) (hinc : bondIncident b origin) :
    otherEnd b origin ≠ origin := by
  rcases otherEnd_cases b origin hinc with ⟨h1, h2⟩ | ⟨h1, h2⟩
  · rw [← h2, ← h1]
    exact fun he => hself he.symm
  · rw [← h1, ← h2]
    exact hself

theorem otherEnd_incident (b : Bond) (origin : Nat)
    (hinc : bondIncident b origin) : bondIncident b (otherEnd b origin) := by
  rcases otherEnd_cases b origin hinc with ⟨_, h2⟩ | ⟨h1, _⟩
  · exact Or.inr h2
  · exact Or.inl h1

theorem otherEnd_symm (b : Bond) (origin : Nat)
    (hself : b.beginAtomIdx ≠ b.endAtomIdx) (hinc : bondIncident b origin) :
    otherEnd b (otherEnd b origin) = origin := by
  have hne := otherEnd_ne b origin hself hinc
  rcases otherEnd_cases b origin hinc with ⟨h1, h2⟩ | ⟨h1, h2⟩ <;>
    rcases otherEnd_cases b (otherEnd b origin)
      (otherEnd_incident b origin hinc) with ⟨p1, p2⟩ | ⟨p1, p2⟩
  · exact absurd (h1.symm.trans p1) (Ne.symm hne)
  · exact p1.symm.trans h1
  · exact p2.symm.trans h2
  · exact absurd (h2.symm.trans p2) (Ne.symm hne)

theorem otherEnd_ring_atom (bonds : List Bond) (rgs : List MolRing)
    (hwf : WellFormed bonds rgs) (b : Bond) (hb : b ∈ bonds) (a : Nat)
    (hinc : bondIncident b a) (hring : 0 < numBondRings rgs b.idx) :
    0 < numAtomRings rgs (otherEnd b a) := by
  have hends := hwf.2.2.2.1 b hb hring
  rcases otherEnd_cases b a hinc with ⟨_, h2⟩ | ⟨h1, _⟩
  · rw [← h2]
    exact hends.2
  · rw [← h1]
    exact hends.1

theorem crossing_ring_degree (bonds : List Bond) (rgs : List MolRing)
    (hwf : WellFormed bonds rgs) (b : Bond) (hb : b ∈ bonds) (origin : Nat)
    (hinc : bondIncident b origin) (hnr : numBondRings rgs b.idx = 0)
    (hring : 0 < numAtomRings rgs (otherEnd b origin)) :
    3 ≤ atomDegree bonds (otherEnd b origin) := by
  rcases ring_atom_two_ring_bonds bonds rgs hwf (otherEnd b origin) hring with
    ⟨b1, hb1, b2, hb2, hne, hi1, hi2, hr1, hr2⟩
  have hbne1 : b ≠ b1 := fun he => by rw [← he] at hr1; omega
  have hbne2 : b ≠ b2 := fun he => by rw [← he] at hr2; omega
  unfold atomDegree bondsOf
  refine three_mem_filter_length bonds _ b b1 b2 hb hb1 hb2 hbne1 hbne2 hne
    ?_ ?_ ?_
  · rcases otherEnd_incident b origin hinc with h | h
    · simp [h]
    · simp [h]
  · rcases hi1 with h | h
    · simp [h]
    · simp [h]
  · rcases hi2 with h | h
    · simp [h]
    · simp [h]

theorem hub_nonterminal (bonds : List Bond) (rgs : List MolRing)
    (hwf : WellFormed bonds rgs) (b : Bond) (hb : b ∈ bonds) (origin : Nat)
    (hinc : bondIncident b origin) (hnr : numBondRings rgs b.idx = 0)
    (hdor : 2 ≤ atomDegree bonds origin)
    (hring : 0 < numAtomRings rgs (otherEnd b origin)) :
    3 ≤ nonTerminalBranches bonds (otherEnd b origin) := by
  have hself : b.beginAtomIdx ≠ b.endAtomIdx := hwf.1 b hb
  rcases ring_atom_two_ring_bonds bonds rgs hwf (otherEnd b origin) hring with
    ⟨b1, hb1, b2, hb2, hne, hi1, hi2, hr1, hr2⟩
  have hbne1 : b ≠ b1 := fun he => by rw [← he] at hr1; omega
  have hbne2 : b ≠ b2 := fun he => by rw [← he] at hr2; omega
  have hself1 : b1.beginAtomIdx ≠ b1.endAtomIdx := hwf.1 b1 hb1
  have hself2 : b2.beginAtomIdx ≠ b2.endAtomIdx := hwf.1 b2 hb2
  have hu1 : 0 < numAtomRings rgs (otherEnd b1 (otherEnd b origin)) :=
    otherEnd_ring_atom bonds rgs hwf b1 hb1 (otherEnd b origin) hi1 hr1
  have hu2 : 0 < numAtomRings rgs (otherEnd b2 (otherEnd b origin)) :=
    otherEnd_ring_atom bonds rgs hwf b2 hb2 (otherEnd b origin) hi2 hr2
  have hd1 : 2 ≤ atomDegree bonds (otherEnd b1 (otherEnd b origin)) :=
    ring_atom_degree_ge_two bonds rgs hwf _ hu1
  have hd2 : 2 ≤ atomDegree bonds (otherEnd b2 (otherEnd b origin)) :=
    ring_atom_degree_ge_two bonds rgs hwf _ hu2
  have hback : otherEnd b (otherEnd b origin) = origin :=
    otherEnd_symm b origin hself hinc
  unfold nonTerminalBranches bondsOf
  rw [List.filter_filter]
  refine three_mem_filter_length bonds _ b b1 b2 hb hb1 hb2 hbne1 hbne2 hne
    ?_ ?_ ?_
  · refine Bool.and_eq_true _ _ |>.mpr ⟨?_, ?_⟩
    · rw [hback]
      simp only [bne_iff_ne, ne_eq]
      omega
    · rcases otherEnd_incident b origin hinc with h | h
      · simp [h]
      · simp [h]
  · refine Bool.and_eq_true _ _ |>.mpr ⟨?_, ?_⟩
    · simp only [bne_iff_ne, ne_eq]
      omega
    · rcases hi1 with h | h
      · simp [h]
      · simp [h]
  · refine Bool.and_eq_true _ _ |>.mpr ⟨?_, ?_⟩
    · simp only [bne_iff_ne, ne_eq]
      omega
    · rcases hi2 with h | h
      · simp [h]
      · simp [h]

theorem filter_length_mono {α : Type} (l : List α) (p q : α → Bool)
    (h : ∀ x ∈ l, p x = true → q x = true) :
    (l.filter p).length ≤ (l.filter q).length := by
  induction l with
  | nil => simp
  | cons a t ih =>
      have iht := ih (fun x hx hpx => h x (List.mem_cons_of_mem a hx) hpx)
      by_cases hp : p a = true
      · have hq := h a (List.mem_cons_self a t) hp
        rw [List.filter_cons_of_pos hp, List.filter_cons_of_pos hq]
        simpa using iht
      · rw [List.filter_cons_of_neg (by simpa using hp)]
        by_cases hq : q a = true
        · rw [List.filter_cons_of_pos hq]
          simp only [List.length_cons]
          omega
        · rw [List.filter_cons_of_neg (by simpa using hq)]
          exact iht

theorem filter_length_lt {α : Type} (p q : α → Bool) (w : α)
    (hqw : q w = true) (hpw : p w = false) :
    ∀ l : List α, (∀ x ∈ l, p x = true → q x = true) → w ∈ l →
      (l.filter p).length < (l.filter q).length := by
  intro l
  induction l with
  | nil => intro _ hw; cases hw
  | cons a t ih =>
      intro hpq hw
      have hpqt : ∀ x ∈ t, p x = true → q x = true :=
        fun x hx => hpq x (List.mem_cons_of_mem a hx)
      by_cases hpa : p a = true
      · have hqa := hpq a (List.mem_cons_self a t) hpa
        rw [List.filter_cons_of_pos hpa, List.filter_cons_of_pos hqa]
        simp only [List.length_cons]
        have hwt : w ∈ t := by
          rcases List.mem_cons.mp hw with rfl | hwt
          · rw [hpa] at hpw
            cases hpw
          · exact hwt
        exact Nat.succ_lt_succ (ih hpqt hwt)
      · rw [List.filter_cons_of_neg (by simpa using hpa)]
        by_cases hqa : q a = true
        · rw [List.filter_cons_of_pos hqa]
          simp only [List.length_cons]
          have hle := filter_length_mono t p q hpqt
          omega
        · have hwt : w ∈ t := by
            rcases List.mem_cons.mp hw with rfl | hwt
            · exact absurd hqw hqa
            · exact hwt
          rw [List.filter_cons_of_neg (by simpa using hqa)]
          exact ih hpqt hwt

theorem mem_insertNat_of_mem (x : Nat) (l : List Nat) (a : Nat)
    (ha : a ∈ l) : a ∈ insertNat x l := by
  unfold insertNat
  split
  · exact ha
  · exact List.mem_cons_of_mem x ha

theorem self_mem_insertNat (x : Nat) (l : List Nat) : x ∈ insertNat x l := by
  unfold insertNat
  split
  · assumption
  · exact List.mem_cons_self x l

theorem unvisited_le_of_subset (bonds : List Bond) (v1 v2 : List Nat)
    (hsub : ∀ x ∈ v1, x ∈ v2) :
    (bonds.filter (fun c => c.idx ∉ v2)).length ≤
      (bonds.filter (fun c => c.idx ∉ v1)).length := by
  refine filter_length_mono bonds _ _ ?_
  intro c _ hp
  simp only [decide_eq_true_eq] at hp ⊢
  exact fun hmem => hp (hsub c.idx hmem)

theorem unvisited_insert_lt (bonds : List Bond) (v : List Nat) (b : Bond)
    (hb : b ∈ bonds) (hnv : b.idx ∉ v) :
    (bonds.filter (fun c => c.idx ∉ insertNat b.idx v)).length <
      (bonds.filter (fun c => c.idx ∉ v)).length := by
  refine filter_length_lt _ _ b ?_ ?_ bonds ?_ hb
  · simp only [decide_eq_true_eq]
    exact hnv
  · simp only [decide_eq_false_iff_not]
    exact fun hcon => hcon (self_mem_insertNat b.idx v)
  · intro c _ hp
    simp only [decide_eq_true_eq] at hp ⊢
    exact fun hmem => hp (mem_insertNat_of_mem b.idx v c.idx hmem)

theorem collectAux_state (rgs : List MolRing) :
    ∀ (fuel origin : Nat) (work : List Bond) (st st' : LinkerState),
      collectAux rgs fuel origin work st = some st' →
      st'.mol.bonds = st.mol.bonds ∧ ∀ v ∈ st.visited, v ∈ st'.visited := by
  intro fuel
  induction fuel with
  | zero =>
      intro origin work st st' h
      cases work with
      | nil =>
          rw [collectAux] at h
          cases h
          exact ⟨rfl, fun v hv => hv⟩
      | cons b rest =>
          rw [collectAux] at h
          cases h
  | succ f ih =>
      intro origin work st st' h
      cases work with
      | nil =>
          rw [collectAux] at h
          cases h
          exact ⟨rfl, fun v hv => hv⟩
      | cons b rest =>
          rw [collectAux] at h
          by_cases hguard : b.idx ∈ st.visited ∨ 0 < numBondRings rgs b.idx
          · rw [if_pos hguard] at h
            exact ih origin rest st st' h
          · rw [if_neg hguard] at h
            simp only [] at h
            by_cases h1 : atomDegree st.mol.bonds (otherEnd b origin) = 1
            · rw [if_pos h1] at h
              obtain ⟨hb, hv⟩ := ih origin rest _ st' h
              exact ⟨hb, fun v hv2 =>
                hv v (mem_insertNat_of_mem b.idx st.visited v hv2)⟩
            · rw [if_neg h1] at h
              by_cases h2 : atomDegree st.mol.bonds (otherEnd b origin) = 2
              · rw [if_pos h2] at h
                cases hrec : collectAux rgs f (otherEnd b origin)
                    (bondsOf st.mol.bonds (otherEnd b origin))
                    { st with removeAtoms := insertNat origin st.removeAtoms,
                              visited := insertNat b.idx st.visited } with
                | none =>
                    rw [hrec] at h
                    cases h
                | some st2 =>
                    rw [hrec] at h
                    obtain ⟨hb1, hv1⟩ := ih _ _ _ st2 hrec
                    obtain ⟨hb2, hv2⟩ := ih origin rest st2 st' h
                    exact ⟨hb2.trans hb1, fun v hv3 => hv2 v
                      (hv1 v (mem_insertNat_of_mem b.idx st.visited v hv3))⟩
              · rw [if_neg h2] at h
                by_cases h3 : 2 < atomDegree st.mol.bonds (otherEnd b origin)
                · rw [if_pos h3] at h
                  by_cases h4 : nonTerminalBranches st.mol.bonds
                      (otherEnd b origin) < 3
                  · rw [if_pos h4] at h
                    cases hrec : collectAux rgs f (otherEnd b origin)
                        (bondsOf st.mol.bonds (otherEnd b origin))
                        { st with
                            removeAtoms := insertNat origin st.removeAtoms,
                            visited := insertNat b.idx st.visited } with
                    | none =>
                        rw [hrec] at h
                        cases h
                    | some st2 =>
                        rw [hrec] at h
                        obtain ⟨hb1, hv1⟩ := ih _ _ _ st2 hrec
                        obtain ⟨hb2, hv2⟩ := ih origin rest st2 st' h
                        exact ⟨hb2.trans hb1, fun v hv3 => hv2 v
                          (hv1 v
                            (mem_insertNat_of_mem b.idx st.visited v hv3))⟩
                  · rw [if_neg h4] at h
                    by_cases hbt : b.bondType = 2
                    · rw [if_pos hbt] at h
                      by_cases hring : 0 < numAtomRings rgs (otherEnd b origin)
                      · rw [if_pos hring] at h
                        exact ih origin rest
                          { st with ringAttachments := insertNat (otherEnd b origin) st.ringAttachments }
                          st' h
                      · rw [if_neg hring] at h
                        exact ih origin rest st st' h
                    · rw [if_neg hbt] at h
                      by_cases hring : 0 < numAtomRings rgs (otherEnd b origin)
                      · rw [if_pos hring] at h
                        obtain ⟨hb2, hv2⟩ := ih origin rest _ st' h
                        exact ⟨hb2, fun v hv3 => hv2 v
                          (mem_insertNat_of_mem b.idx st.visited v hv3)⟩
                      · rw [if_neg hring] at h
                        obtain ⟨hb2, hv2⟩ := ih origin rest _ st' h
                        exact ⟨hb2, fun v hv3 => hv2 v
                          (mem_insertNat_of_mem b.idx st.visited v hv3)⟩
                · rw [if_neg h3] at h
                  exact ih origin rest st st' h

theorem collectAux_total (rgs : List MolRing) :
    ∀ (fuel origin : Nat) (work : List Bond) (st : LinkerState),
      (∀ c ∈ work, c ∈ st.mol.bonds) →
      (st.mol.bonds.filter (fun c => c.idx ∉ st.visited)).length *
          (st.mol.bonds.length + 1) + work.length < fuel →
      ∃ st', collectAux rgs fuel origin work st = some st' := by
  intro fuel
  induction fuel with
  | zero => intro origin work st _ hm; omega
  | succ f ih =>
      intro origin work st hwork hm
      cases work with
      | nil => exact ⟨st, by rw [collectAux]⟩
      | cons b rest =>
          rw [collectAux]
          obtain hbmem := hwork b (List.mem_cons_self b rest)
          have hwrest : ∀ c ∈ rest, c ∈ st.mol.bonds :=
            fun c hc => hwork c (List.mem_cons_of_mem b hc)
          simp only [List.length_cons] at hm
          by_cases hguard : b.idx ∈ st.visited ∨ 0 < numBondRings rgs b.idx
          · rw [if_pos hguard]
            exact ih origin rest st hwrest (by omega)
          · rw [if_neg hguard]
            have hnv : b.idx ∉ st.visited := fun hmem => hguard (Or.inl hmem)
            simp only []
            have hle := unvisited_le_of_subset st.mol.bonds st.visited
              (insertNat b.idx st.visited)
              (fun x hx => mem_insertNat_of_mem b.idx st.visited x hx)
            have hmulle := Nat.mul_le_mul_right (st.mol.bonds.length + 1) hle
            have hlt := unvisited_insert_lt st.mol.bonds st.visited b hbmem hnv
            have hmullt := Nat.mul_le_mul_right (st.mol.bonds.length + 1)
              (Nat.succ_le_of_lt hlt)
            rw [Nat.succ_mul] at hmullt
            have hfl : (bondsOf st.mol.bonds (otherEnd b origin)).length ≤
                st.mol.bonds.length := List.length_filter_le _ _
            by_cases h1 : atomDegree st.mol.bonds (otherEnd b origin) = 1
            · rw [if_pos h1]
              refine ih origin rest _ (fun c hc => hwrest c hc) ?_
              show (st.mol.bonds.filter
                  (fun c => c.idx ∉ insertNat b.idx st.visited)).length *
                  (st.mol.bonds.length + 1) + rest.length < f
              omega
            · rw [if_neg h1]
              by_cases h2 : atomDegree st.mol.bonds (otherEnd b origin) = 2
              · rw [if_pos h2]
                obtain ⟨st2, hst2⟩ := ih (otherEnd b origin)
                  (bondsOf st.mol.bonds (otherEnd b origin))
                  { st with removeAtoms := insertNat origin st.removeAtoms,
                            visited := insertNat b.idx st.visited }
                  (fun c hc =>
                    (bondsOf_mem st.mol.bonds (otherEnd b origin) c hc).1)
                  (by
                    show (st.mol.bonds.filter
                        (fun c => c.idx ∉ insertNat b.idx st.visited)).length *
                        (st.mol.bonds.length + 1) +
                        (bondsOf st.mol.bonds (otherEnd b origin)).length < f
                    omega)
                rw [hst2]
                obtain ⟨hbeq, hvmono⟩ := collectAux_state rgs f
                  (otherEnd b origin)
                  (bondsOf st.mol.bonds (otherEnd b origin))
                  { st with removeAtoms := insertNat origin st.removeAtoms,
                            visited := insertNat b.idx st.visited } st2 hst2
                have hbeq2 : st2.mol.bonds = st.mol.bonds := hbeq
                have hmono2 : (st.mol.bonds.filter
                    (fun c => c.idx ∉ st2.visited)).length ≤
                    (st.mol.bonds.filter
                      (fun c => c.idx ∉ insertNat b.idx st.visited)).length :=
                  unvisited_le_of_subset st.mol.bonds
                    (insertNat b.idx st.visited) st2.visited
                    (fun x hx => hvmono x hx)
                have hmul2 := Nat.mul_le_mul_right (st.mol.bonds.length + 1)
                  hmono2
                obtain ⟨st3, hst3⟩ := ih origin rest st2
                  (fun c hc => by rw [hbeq2]; exact hwrest c hc)
                  (by
                    show (st2.mol.bonds.filter
                        (fun c => c.idx ∉ st2.visited)).length *
                        (st2.mol.bonds.length + 1) + rest.length < f
                    rw [hbeq2]
                    omega)
                exact ⟨st3, hst3⟩
              · rw [if_neg h2]
                by_cases h3 : 2 < atomDegree st.mol.bonds (otherEnd b origin)
                · rw [if_pos h3]
                  by_cases h4 : nonTerminalBranches st.mol.bonds
                      (otherEnd b origin) < 3
                  · rw [if_pos h4]
                    obtain ⟨st2, hst2⟩ := ih (otherEnd b origin)
                      (bondsOf st.mol.bonds (otherEnd b origin))
                      { st with
                          removeAtoms := insertNat origin st.removeAtoms,
                          visited := insertNat b.idx st.visited }
                      (fun c hc =>
                        (bondsOf_mem st.mol.bonds (otherEnd b origin) c hc).1)
                      (by
                        show (st.mol.bonds.filter
                            (fun c =>
                              c.idx ∉ insertNat b.idx st.visited)).length *
                            (st.mol.bonds.length + 1) +
                            (bondsOf st.mol.bonds
                              (otherEnd b origin)).length < f
                        omega)
                    rw [hst2]
                    obtain ⟨hbeq, hvmono⟩ := collectAux_state rgs f
                      (otherEnd b origin)
                      (bondsOf st.mol.bonds (otherEnd b origin))
                      { st with
                          removeAtoms := insertNat origin st.removeAtoms,
                          visited := insertNat b.idx st.visited } st2 hst2
                    have hbeq2 : st2.mol.bonds = st.mol.bonds := hbeq
                    have hmono2 : (st.mol.bonds.filter
                        (fun c => c.idx ∉ st2.visited)).length ≤
                        (st.mol.bonds.filter
                          (fun c =>
                            c.idx ∉ insertNat b.idx st.visited)).length :=
                      unvisited_le_of_subset st.mol.bonds
                        (insertNat b.idx st.visited) st2.visited
                        (fun x hx => hvmono x hx)
                    have hmul2 := Nat.mul_le_mul_right
                      (st.mol.bonds.length + 1) hmono2
                    obtain ⟨st3, hst3⟩ := ih origin rest st2
                      (fun c hc => by rw [hbeq2]; exact hwrest c hc)
                      (by
                        show (st2.mol.bonds.filter
                            (fun c => c.idx ∉ st2.visited)).length *
                            (st2.mol.bonds.length + 1) + rest.length < f
                        rw [hbeq2]
                        omega)
                    exact ⟨st3, hst3⟩
                  · rw [if_neg h4]
                    by_cases hbt : b.bondType = 2
                    · rw [if_pos hbt]
                      by_cases hring : 0 < numAtomRings rgs (otherEnd b origin)
                      · rw [if_pos hring]
                        refine ih origin rest _ (fun c hc => hwrest c hc) ?_
                        show (st.mol.bonds.filter
                            (fun c => c.idx ∉ st.visited)).length *
                            (st.mol.bonds.length + 1) + rest.length < f
                        omega
                      · rw [if_neg hring]
                        exact ih origin rest st hwrest (by omega)
                    · rw [if_neg hbt]
                      by_cases hring : 0 < numAtomRings rgs (otherEnd b origin)
                      · rw [if_pos hring]
                        refine ih origin rest _ (fun c hc => hwrest c hc) ?_
                        show (st.mol.bonds.filter
                            (fun c =>
                              c.idx ∉ insertNat b.idx st.visited)).length *
                            (st.mol.bonds.length + 1) + rest.length < f
                        omega
                      · rw [if_neg hring]
                        refine ih origin rest _ (fun c hc => hwrest c hc) ?_
                        show (st.mol.bonds.filter
                            (fun c =>
                              c.idx ∉ insertNat b.idx st.visited)).length *
                            (st.mol.bonds.length + 1) + rest.length < f
                        omega
                · rw [if_neg h3]
                  exact ih origin rest st hwrest (by omega)

theorem collect_linker_fuel_ok (m : Mol) (origin : Nat) :
    (m.bonds.filter (fun c => c.idx ∉ ([] : List Nat))).length *
        (m.bonds.length + 1) + (bondsOf m.bonds origin).length <
      (m.bonds.length + 1) * (m.bonds.length + 1) := by
  have h1 : (m.bonds.filter
      (fun c => c.idx ∉ ([] : List Nat))).length ≤ m.bonds.length :=
    List.length_filter_le _ _
  have h2 : (bondsOf m.bonds origin).length ≤ m.bonds.length :=
    List.length_filter_le _ _
  have h3 := Nat.mul_le_mul_right (m.bonds.length + 1) h1
  have h4 : (m.bonds.length + 1) * (m.bonds.length + 1) =
      m.bonds.length * (m.bonds.length + 1) + (m.bonds.length + 1) :=
    Nat.succ_mul _ _
  omega

theorem collect_invariant (rgs : List MolRing) :
    ∀ (fuel origin : Nat) (work : List Bond) (st : LinkerState),
      WellFormed st.mol.bonds rgs →
      2 ≤ atomDegree st.mol.bonds origin →
      (∀ c ∈ work, c ∈ st.mol.bonds ∧ bondIncident c origin) →
      ∀ st', collectAux rgs fuel origin work st = some st' →
      (∀ a ∈ st'.removeAtoms,
          a ∈ st.removeAtoms ∨ a = origin ∨ numAtomRings rgs a = 0) ∧
      (∀ v ∈ st'.visited, v ∈ st.visited ∨ numBondRings rgs v = 0) := by
  intro fuel
  induction fuel with
  | zero =>
      intro origin work st _ _ _ st' h
      cases work with
      | nil =>
          rw [collectAux] at h
          cases h
          exact ⟨fun a ha => Or.inl ha, fun v hv => Or.inl hv⟩
      | cons b rest =>
          rw [collectAux] at h
          cases h
  | succ f ih =>
      intro origin work st hwf hdeg hwork st' h
      cases work with
      | nil =>
          rw [collectAux] at h
          cases h
          exact ⟨fun a ha => Or.inl ha, fun v hv => Or.inl hv⟩
      | cons b rest =>
          obtain ⟨hbmem, hbinc⟩ := hwork b (List.mem_cons_self b rest)
          have hwrest : ∀ c ∈ rest, c ∈ st.mol.bonds ∧ bondIncident c origin :=
            fun c hc => hwork c (List.mem_cons_of_mem b hc)
          have step : ∀ st2 : LinkerState, st2.mol.bonds = st.mol.bonds →
              (∀ a ∈ st2.removeAtoms,
                a ∈ st.removeAtoms ∨ a = origin ∨ numAtomRings rgs a = 0) →
              (∀ v ∈ st2.visited,
                v ∈ st.visited ∨ numBondRings rgs v = 0) →
              collectAux rgs f origin rest st2 = some st' →
              (∀ a ∈ st'.removeAtoms,
                a ∈ st.removeAtoms ∨ a = origin ∨ numAtomRings rgs a = 0) ∧
              (∀ v ∈ st'.visited,
                v ∈ st.visited ∨ numBondRings rgs v = 0) := by
            intro st2 hb2 hr2 hv2 hcont
            obtain ⟨ir, iv⟩ := ih origin rest st2 (by rw [hb2]; exact hwf)
              (by rw [hb2]; exact hdeg)
              (fun c hc => by rw [hb2]; exact hwrest c hc) st' hcont
            constructor
            · intro a ha
              rcases ir a ha with h2 | h2 | h2
              · exact hr2 a h2
              · exact Or.inr (Or.inl h2)
              · exact Or.inr (Or.inr h2)
            · intro v hv
              rcases iv v hv with h2 | h2
              · exact hv2 v h2
              · exact Or.inr h2
          rw [collectAux] at h
          by_cases hguard : b.idx ∈ st.visited ∨ 0 < numBondRings rgs b.idx
          · rw [if_pos hguard] at h
            exact step st rfl (fun a ha => Or.inl ha) (fun v hv => Or.inl hv) h
          · rw [if_neg hguard] at h
            have hnr : numBondRings rgs b.idx = 0 := by
              rcases Nat.eq_zero_or_pos (numBondRings rgs b.idx) with h2 | h2
              · exact h2
              · exact absurd (Or.inr h2) hguard
            simp only [] at h
            by_cases h1 : atomDegree st.mol.bonds (otherEnd b origin) = 1
            · rw [if_pos h1] at h
              have hnonring : numAtomRings rgs (otherEnd b origin) = 0 := by
                rcases Nat.eq_zero_or_pos
                    (numAtomRings rgs (otherEnd b origin)) with h2 | h2
                · exact h2
                · have := ring_atom_degree_ge_two st.mol.bonds rgs hwf _ h2
                  omega
              refine step
                { st with mol := correctAtomAt st.mol origin,
                          visited := insertNat b.idx st.visited,
                          removeAtoms := insertNat (otherEnd b origin) (insertNat origin st.removeAtoms) }
                rfl ?_ ?_ h
              · intro a ha
                rcases mem_insertNat _ _ a ha with h2 | h2
                · exact Or.inr (Or.inr (h2 ▸ hnonring))
                · rcases mem_insertNat _ _ a h2 with h3 | h3
                  · exact Or.inr (Or.inl h3)
                  · exact Or.inl h3
              · intro v hv
                rcases mem_insertNat _ _ v hv with h2 | h2
                · exact Or.inr (h2 ▸ hnr)
                · exact Or.inl h2
            · rw [if_neg h1] at h
              by_cases h2 : atomDegree st.mol.bonds (otherEnd b origin) = 2
              · rw [if_pos h2] at h
                have hnonring : numAtomRings rgs (otherEnd b origin) = 0 := by
                  rcases Nat.eq_zero_or_pos
                      (numAtomRings rgs (otherEnd b origin)) with h3 | h3
                  · exact h3
                  · have := crossing_ring_degree st.mol.bonds rgs hwf b hbmem
                      origin hbinc hnr h3
                    omega
                cases hrec : collectAux rgs f (otherEnd b origin)
                    (bondsOf st.mol.bonds (otherEnd b origin))
                    { st with removeAtoms := insertNat origin st.removeAtoms,
                              visited := insertNat b.idx st.visited } with
                | none =>
                    rw [hrec] at h
                    cases h
                | some st2 =>
                    rw [hrec] at h
                    obtain ⟨ir2, iv2⟩ := ih (otherEnd b origin)
                      (bondsOf st.mol.bonds (otherEnd b origin))
                      { st with
                          removeAtoms := insertNat origin st.removeAtoms,
                          visited := insertNat b.idx st.visited }
                      hwf (by show 2 ≤ atomDegree st.mol.bonds
                                  (otherEnd b origin)
                              omega)
                      (fun c hc =>
                        bondsOf_mem st.mol.bonds (otherEnd b origin) c hc)
                      st2 hrec
                    have hbeq := (collectAux_state rgs f (otherEnd b origin)
                      (bondsOf st.mol.bonds (otherEnd b origin))
                      { st with
                          removeAtoms := insertNat origin st.removeAtoms,
                          visited := insertNat b.idx st.visited }
                      st2 hrec).1
                    refine step st2 hbeq ?_ ?_ h
                    · intro a ha
                      rcases ir2 a ha with h3 | h3 | h3
                      · rcases mem_insertNat _ _ a h3 with h4 | h4
                        · exact Or.inr (Or.inl h4)
                        · exact Or.inl h4
                      · exact Or.inr (Or.inr (h3 ▸ hnonring))
                      · exact Or.inr (Or.inr h3)
                    · intro v hv
                      rcases iv2 v hv with h3 | h3
                      · rcases mem_insertNat _ _ v h3 with h4 | h4
                        · exact Or.inr (h4 ▸ hnr)
                        · exact Or.inl h4
                      · exact Or.inr h3
              · rw [if_neg h2] at h
                by_cases h3 : 2 < atomDegree st.mol.bonds (otherEnd b origin)
                · rw [if_pos h3] at h
                  by_cases h4 : nonTerminalBranches st.mol.bonds
                      (otherEnd b origin) < 3
                  · rw [if_pos h4] at h
                    have hnonring :
                        numAtomRings rgs (otherEnd b origin) = 0 := by
                      rcases Nat.eq_zero_or_pos
                          (numAtomRings rgs (otherEnd b origin)) with h5 | h5
                      · exact h5
                      · have := hub_nonterminal st.mol.bonds rgs hwf b hbmem
                          origin hbinc hnr hdeg h5
                        omega
                    cases hrec : collectAux rgs f (otherEnd b origin)
                        (bondsOf st.mol.bonds (otherEnd b origin))
                        { st with
                            removeAtoms := insertNat origin st.removeAtoms,
                            visited := insertNat b.idx st.visited } with
                    | none =>
                        rw [hrec] at h
                        cases h
                    | some st2 =>
                        rw [hrec] at h
                        obtain ⟨ir2, iv2⟩ := ih (otherEnd b origin)
                          (bondsOf st.mol.bonds (otherEnd b origin))
                          { st with
                              removeAtoms := insertNat origin st.removeAtoms,
                              visited := insertNat b.idx st.visited }
                          hwf (by show 2 ≤ atomDegree st.mol.bonds
                                      (otherEnd b origin)
                                  omega)
                          (fun c hc =>
                            bondsOf_mem st.mol.bonds (otherEnd b origin) c hc)
                          st2 hrec
                        have hbeq := (collectAux_state rgs f
                          (otherEnd b origin)
                          (bondsOf st.mol.bonds (otherEnd b origin))
                          { st with
                              removeAtoms := insertNat origin st.removeAtoms,
                              visited := insertNat b.idx st.visited }
                          st2 hrec).1
                        refine step st2 hbeq ?_ ?_ h
                        · intro a ha
                          rcases ir2 a ha with h5 | h5 | h5
                          · rcases mem_insertNat _ _ a h5 with h6 | h6
                            · exact Or.inr (Or.inl h6)
                            · exact Or.inl h6
                          · exact Or.inr (Or.inr (h5 ▸ hnonring))
                          · exact Or.inr (Or.inr h5)
                        · intro v hv
                          rcases iv2 v hv with h5 | h5
                          · rcases mem_insertNat _ _ v h5 with h6 | h6
                            · exact Or.inr (h6 ▸ hnr)
                            · exact Or.inl h6
                          · exact Or.inr h5
                  · rw [if_neg h4] at h
                    by_cases hbt : b.bondType = 2
                    · rw [if_pos hbt] at h
                      by_cases hring : 0 < numAtomRings rgs (otherEnd b origin)
                      · rw [if_pos hring] at h
                        exact step
                          { st with ringAttachments := insertNat (otherEnd b origin) st.ringAttachments }
                          rfl (fun a ha => Or.inl ha) (fun v hv => Or.inl hv) h
                      · rw [if_neg hring] at h
                        exact step st rfl (fun a ha => Or.inl ha)
                          (fun v hv => Or.inl hv) h
                    · rw [if_neg hbt] at h
                      by_cases hring : 0 < numAtomRings rgs (otherEnd b origin)
                      · rw [if_pos hring] at h
                        refine step
                          { st with mol := correctAtomAt st.mol (otherEnd b origin),
                                    visited := insertNat b.idx st.visited,
                                    removeAtoms := insertNat origin st.removeAtoms,
                                    ringAttachments := insertNat (otherEnd b origin) st.ringAttachments }
                          rfl ?_ ?_ h
                        · intro a ha
                          rcases mem_insertNat _ _ a ha with h5 | h5
                          · exact Or.inr (Or.inl h5)
                          · exact Or.inl h5
                        · intro v hv
                          rcases mem_insertNat _ _ v hv with h5 | h5
                          · exact Or.inr (h5 ▸ hnr)
                          · exact Or.inl h5
                      · rw [if_neg hring] at h
                        refine step
                          { st with mol := correctAtomAt st.mol (otherEnd b origin),
                                    visited := insertNat b.idx st.visited,
                                    removeAtoms := insertNat origin st.removeAtoms }
                          rfl ?_ ?_ h
                        · intro a ha
                          rcases mem_insertNat _ _ a ha with h5 | h5
                          · exact Or.inr (Or.inl h5)
                          · exact Or.inl h5
                        · intro v hv
                          rcases mem_insertNat _ _ v hv with h5 | h5
                          · exact Or.inr (h5 ▸ hnr)
                          · exact Or.inl h5
                · rw [if_neg h3] at h
                  exact step st rfl (fun a ha => Or.inl ha)
                    (fun v hv => Or.inl hv) h

theorem collect_linker_atoms_safe (m : Mol) (rgs : List MolRing)
    (origin : Nat) (initRemove : List Nat) (includeOrigin : Bool)
    (hwf : WellFormed m.bonds rgs)
    (hdeg : 2 ≤ atomDegree m.bonds origin) :
    (∀ a ∈ (collect_linker_atoms m rgs origin initRemove
        includeOrigin).removeAtoms,
      a ∈ initRemove ∨ a = origin ∨ numAtomRings rgs a = 0) ∧
    (∀ v ∈ (collect_linker_atoms m rgs origin initRemove
        includeOrigin).visited,
      numBondRings rgs v = 0) := by
  obtain ⟨st1, hst1⟩ := collectAux_total rgs
    ((m.bonds.length + 1) * (m.bonds.length + 1)) origin
    (bondsOf m.bonds origin) ⟨m, [], initRemove, []⟩
    (fun c hc => (bondsOf_mem m.bonds origin c hc).1)
    (collect_linker_fuel_ok m origin)
  obtain ⟨hr, hv⟩ := collect_invariant rgs
    ((m.bonds.length + 1) * (m.bonds.length + 1)) origin
    (bondsOf m.bonds origin) ⟨m, [], initRemove, []⟩ hwf hdeg
    (fun c hc => bondsOf_mem m.bonds origin c hc) st1 hst1
  unfold collect_linker_atoms
  simp only []
  rw [hst1, Option.getD_some]
  constructor
  · intro a ha
    split at ha
    · split at ha
      · simp only [List.mem_filter] at ha
        exact hr a ha.1
      · exact hr a ha
    · split at ha
      · simp only [List.mem_filter] at ha
        exact hr a ha.1
      · exact hr a ha
  · intro v hv2
    split at hv2
    · split at hv2
      · rcases hv v hv2 with h | h
        · cases h
        · exact h
      · rcases hv v hv2 with h | h
        · cases h
        · exact h
    · split at hv2
      · rcases hv v hv2 with h | h
        · cases h
        · exact h
      · rcases hv v hv2 with h | h
        · cases h
        · exact h

/-- C5: during a ring or ring-system removal step, no atom belonging
to a ring other than the selected one is ever added to the delete set.
Under the engine-guaranteed ring perception invariants and an origin
of degree at least 2 (the fragmenters invoke the collector on ring
atoms of degree above 2), every atom added to the delete set by the
Linker Collector either was already present, or is the origin itself
(an atom of the selected ring only), or lies on no ring at all; and
every visited (crossed) bond has ring-membership count zero — the
traversal never crosses a ring bond. -/
theorem claim_C5_no_foreign_ring_atoms (m : Mol) (rgs : List MolRing)
    (origin : Nat) (initRemove : List Nat) (includeOrigin : Bool)
    (hwf : WellFormed m.bonds rgs)
    (hdeg : 2 ≤ atomDegree m.bonds origin) :
    (∀ a ∈ (collect_linker_atoms m rgs origin initRemove
        includeOrigin).removeAtoms,
      a ∈ initRemove ∨ a = origin ∨ numAtomRings rgs a = 0) ∧
    (∀ v ∈ (collect_linker_atoms m rgs origin initRemove
        includeOrigin).visited,
      numBondRings rgs v = 0) :=
  collect_linker_atoms_safe m rgs origin initRemove includeOrigin hwf hdeg

theorem claim_C5_witness :
    3 ∈ (collect_linker_atoms linkMol linkRings 0 [] true).removeAtoms ∧
      ((3 : Nat) ∈ ([] : List Nat) ∨ 3 = 0 ∨ numAtomRings linkRings 3 = 0) :=
  ⟨by decide,
   (claim_C5_no_foreign_ring_atoms linkMol linkRings 0 [] true (by decide)
     (by decide)).1 3 (by decide)⟩

theorem collect_linker_atoms_bonds (m : Mol) (rgs : List MolRing)
    (origin : Nat) (removeAtoms : List Nat) (includeOrigin : Bool) :
    (collect_linker_atoms m rgs origin removeAtoms
        includeOrigin).mol.bonds = m.bonds := by
  obtain ⟨st1, hst1⟩ := collectAux_total rgs
    ((m.bonds.length + 1) * (m.bonds.length + 1)) origin
    (bondsOf m.bonds origin) ⟨m, [], removeAtoms, []⟩
    (fun c hc => (bondsOf_mem m.bonds origin c hc).1)
    (collect_linker_fuel_ok m origin)
  have hb := (collectAux_state rgs
    ((m.bonds.length + 1) * (m.bonds.length + 1)) origin
    (bondsOf m.bonds origin) ⟨m, [], removeAtoms, []⟩ st1 hst1).1
  unfold collect_linker_atoms
  simp only []
  rw [hst1, Option.getD_some]
  split
  · split
    · exact hb
    · exact hb
  · split
    · exact hb
    · exact hb

theorem mem_dedupNat (l : List Nat) (x : Nat) (hx : x ∈ dedupNat l) :
    x ∈ l := by
  unfold dedupNat at hx
  have aux : ∀ (t : List Nat) (acc : List Nat),
      x ∈ t.foldl (fun acc y => if y ∈ acc then acc else acc ++ [y]) acc →
      x ∈ acc ∨ x ∈ t := by
    intro t
    induction t with
    | nil => intro acc h; exact Or.inl h
    | cons a t2 ih =>
        intro acc h
        simp only [List.foldl_cons] at h
        rcases ih _ h with h2 | h2
        · split at h2
          · exact Or.inl h2
          · rcases List.mem_append.mp h2 with h3 | h3
            · exact Or.inl h3
            · simp only [List.mem_singleton] at h3
              exact Or.inr (h3 ▸ List.mem_cons_self a t2)
        · exact Or.inr (List.mem_cons_of_mem a h2)
  rcases aux l [] hx with h | h
  · cases h
  · exact h

theorem shared_bond_endpoints (bonds : List Bond) (rgs : List MolRing)
    (hwf : WellFormed bonds rgs) (b : Bond) (hb : b ∈ bonds)
    (h : 1 < numBondRings rgs b.idx) :
    2 ≤ numAtomRings rgs b.beginAtomIdx ∧
      2 ≤ numAtomRings rgs b.endAtomIdx := by
  have hmono1 : numBondRings rgs b.idx ≤ numAtomRings rgs b.beginAtomIdx := by
    unfold numBondRings numAtomRings
    refine filter_length_mono rgs _ _ ?_
    intro r hr hp
    have hbix : b.idx ∈ r.bix := by simpa using hp
    have := hwf.2.2.2.2.2 r hr b.idx hbix b hb rfl
    simp [this.1]
  have hmono2 : numBondRings rgs b.idx ≤ numAtomRings rgs b.endAtomIdx := by
    unfold numBondRings numAtomRings
    refine filter_length_mono rgs _ _ ?_
    intro r hr hp
    have hbix : b.idx ∈ r.bix := by simpa using hp
    have := hwf.2.2.2.2.2 r hr b.idx hbix b hb rfl
    simp [this.2]
  omega

theorem ringRemoveAtoms_spec (rgs : List MolRing) (ring : MolRing)
    (edit0 : Mol) (hwf : WellFormed edit0.bonds rgs) :
    (∀ a ∈ (ringRemoveAtoms rgs ring edit0).1, numAtomRings rgs a ≤ 1) ∧
    (ringRemoveAtoms rgs ring edit0).2.bonds = edit0.bonds := by
  unfold ringRemoveAtoms
  have aux : ∀ (l : List Nat) (acc : List Nat × Mol),
      (∀ a ∈ acc.1, numAtomRings rgs a ≤ 1) → acc.2.bonds = edit0.bonds →
      (∀ a ∈ (l.foldl (fun acc index =>
          if numAtomRings rgs index = 1 then
            if 2 < atomDegree acc.2.bonds index then
              let st := collect_linker_atoms acc.2 rgs index acc.1 true
              (st.removeAtoms, st.mol)
            else (insertNat index acc.1, acc.2)
          else (acc.1, correctAtomAt acc.2 index)) acc).1,
        numAtomRings rgs a ≤ 1) ∧
      (l.foldl (fun acc index =>
          if numAtomRings rgs index = 1 then
            if 2 < atomDegree acc.2.bonds index then
              let st := collect_linker_atoms acc.2 rgs index acc.1 true
              (st.removeAtoms, st.mol)
            else (insertNat index acc.1, acc.2)
          else (acc.1, correctAtomAt acc.2 index)) acc).2.bonds =
        edit0.bonds := by
    intro l
    induction l with
    | nil => intro acc h1 h2; exact ⟨h1, h2⟩
    | cons i t ih =>
        intro acc h1 h2
        simp only [List.foldl_cons]
        by_cases hc1 : numAtomRings rgs i = 1
        · by_cases hc2 : 2 < atomDegree acc.2.bonds i
          · rw [if_pos hc1, if_pos hc2]
            refine ih _ ?_ ?_
            · intro a ha
              have hsafe := (collect_linker_atoms_safe acc.2 rgs i acc.1 true
                (by rw [h2]; exact hwf) (by omega)).1 a ha
              rcases hsafe with h | h | h
              · exact h1 a h
              · rw [h]
                omega
              · omega
            · rw [collect_linker_atoms_bonds]
              exact h2
          · rw [if_pos hc1, if_neg hc2]
            refine ih _ ?_ h2
            intro a ha
            rcases mem_insertNat _ _ a ha with h | h
            · rw [h]
              omega
            · exact h1 a h
        · rw [if_neg hc1]
          exact ih _ h1 h2
  exact aux ring.aix ([], edit0) (by simp) rfl

theorem ringRemoveBonds_spec (rgs : List MolRing) (ring : MolRing)
    (ra : List Nat) (edit1 : Mol) :
    ((ringRemoveBonds rgs ring ra edit1).2.bonds = edit1.bonds) ∧
    (∀ pr ∈ (ringRemoveBonds rgs ring ra edit1).1, ∃ b ∈ edit1.bonds,
      numBondRings rgs b.idx = 1 ∧ pr = (b.beginAtomIdx, b.endAtomIdx) ∧
      b.beginAtomIdx ∉ ra ∧ b.endAtomIdx ∉ ra) := by
  unfold ringRemoveBonds
  have aux : ∀ (l : List Nat), (∀ x ∈ l, numBondRings rgs x = 1) →
      ∀ (acc : List (Nat × Nat) × Mol), acc.2.bonds = edit1.bonds →
      (∀ pr ∈ acc.1, ∃ b ∈ edit1.bonds,
        numBondRings rgs b.idx = 1 ∧ pr = (b.beginAtomIdx, b.endAtomIdx) ∧
        b.beginAtomIdx ∉ ra ∧ b.endAtomIdx ∉ ra) →
      ((l.foldl (fun acc bix =>
          match findBond acc.2.bonds bix with
          | none => acc
          | some bond =>
            let bx := bond.beginAtomIdx
            let by_ := bond.endAtomIdx
            if bx ∉ ra ∧ by_ ∉ ra then
              (acc.1 ++ [(bx, by_)],
                correctAtomAt (correctAtomAt acc.2 bx) by_)
            else acc) acc).2.bonds = edit1.bonds) ∧
      (∀ pr ∈ (l.foldl (fun acc bix =>
          match findBond acc.2.bonds bix with
          | none => acc
          | some bond =>
            let bx := bond.beginAtomIdx
            let by_ := bond.endAtomIdx
            if bx ∉ ra ∧ by_ ∉ ra then
              (acc.1 ++ [(bx, by_)],
                correctAtomAt (correctAtomAt acc.2 bx) by_)
            else acc) acc).1, ∃ b ∈ edit1.bonds,
        numBondRings rgs b.idx = 1 ∧ pr = (b.beginAtomIdx, b.endAtomIdx) ∧
        b.beginAtomIdx ∉ ra ∧ b.endAtomIdx ∉ ra) := by
    intro l
    induction l with
    | nil => intro _ acc h2 h3; exact ⟨h2, h3⟩
    | cons bix t ih =>
        intro hl acc h2 h3
        simp only [List.foldl_cons]
        cases hfind : findBond acc.2.bonds bix with
        | none =>
            simp only [hfind]
            exact ih (fun x hx => hl x (List.mem_cons_of_mem bix hx)) acc h2 h3
        | some bond =>
            simp only [hfind]
            have hbond_mem : bond ∈ edit1.bonds := by
              rw [← h2]
              exact List.mem_of_find?_eq_some hfind
            have hbond_idx : bond.idx = bix := by
              have := List.find?_some hfind
              simpa using this
            by_cases hcond : bond.beginAtomIdx ∉ ra ∧ bond.endAtomIdx ∉ ra
            · rw [if_pos hcond]
              refine ih (fun x hx => hl x (List.mem_cons_of_mem bix hx)) _
                h2 ?_
              intro pr hpr
              rcases List.mem_append.mp hpr with h | h
              · exact h3 pr h
              · simp only [List.mem_singleton] at h
                exact ⟨bond, hbond_mem,
                  by rw [hbond_idx]; exact hl bix (List.mem_cons_self bix t),
                  h, hcond.1, hcond.2⟩
            · rw [if_neg hcond]
              exact ih (fun x hx => hl x (List.mem_cons_of_mem bix hx)) acc
                h2 h3
  refine aux _ ?_ ([], edit1) rfl (by simp)
  intro x hx
  have := mem_dedupNat _ x hx
  have h2 := List.mem_filter.mp this
  simpa using h2.2

theorem sameEnds_symm (b1 b2 : Bond) (h : sameEnds b1 b2) :
    sameEnds b2 b1 := by
  unfold sameEnds at h ⊢
  rcases h with ⟨h1, h2⟩ | ⟨h1, h2⟩
  · exact Or.inl ⟨h1.symm, h2.symm⟩
  · exact Or.inr ⟨h2.symm, h1.symm⟩

/-- C6: with the small-ring rule enabled, for a ring with exactly
three atoms, exactly one atom neither hydrogen nor carbon, and exactly
one bond shared with another ring, the Ring Fragmenter's per-ring edit
converts that shared bond into a double bond instead of deleting it:
after the Scheme 4 stage the bond carries order 2, its endpoints are
never in the atom delete set, and no pair in the bond delete set
matches its endpoints — so the removal stages leave it in place and
the fused partner keeps its atoms, producing a parent with an added
unsaturation at the former fusion bond. -/
theorem claim_C6_scheme4 (rgs : List MolRing) (scafMol : Mol)
    (ring : MolRing) (s : Nat) (hring : ring ∈ rgs)
    (hwf : WellFormed scafMol.bonds rgs)
    (hlen : ring.aix.length = 3)
    (hhet : ((ring.aix.map (fun i => (atomAt scafMol i).atomicNum)).filter
      (fun a => a != 1 && a != 6)).length = 1)
    (hshared : dedupNat (ring.bix.filter
      (fun x => 1 < numBondRings rgs x)) = [s]) :
    (∃ b ∈ (applyScheme4 true rgs ring scafMol
        (ringRemoveBonds rgs ring (ringRemoveAtoms rgs ring scafMol).1
          (ringRemoveAtoms rgs ring scafMol).2).2).bonds,
      b.idx = s ∧ b.bondType = 2) ∧
    (∀ b ∈ scafMol.bonds, b.idx = s →
      b.beginAtomIdx ∉ (ringRemoveAtoms rgs ring scafMol).1 ∧
      b.endAtomIdx ∉ (ringRemoveAtoms rgs ring scafMol).1 ∧
      ∀ pr ∈ (ringRemoveBonds rgs ring (ringRemoveAtoms rgs ring scafMol).1
          (ringRemoveAtoms rgs ring scafMol).2).1,
        pr ≠ (b.beginAtomIdx, b.endAtomIdx) ∧
        pr ≠ (b.endAtomIdx, b.beginAtomIdx)) := by
  have hsmem : s ∈ dedupNat (ring.bix.filter
      (fun x => 1 < numBondRings rgs x)) := by
    rw [hshared]
    exact List.mem_singleton_self s
  have hsp := List.mem_filter.mp (mem_dedupNat _ s hsmem)
  have hsbix : s ∈ ring.bix := hsp.1
  have hs2 : 1 < numBondRings rgs s := by simpa using hsp.2
  obtain ⟨hra_atoms, hra_bonds⟩ := ringRemoveAtoms_spec rgs ring scafMol hwf
  obtain ⟨hrb_bonds, hrb_pairs⟩ := ringRemoveBonds_spec rgs ring
    (ringRemoveAtoms rgs ring scafMol).1 (ringRemoveAtoms rgs ring scafMol).2
  have hE2 : (ringRemoveBonds rgs ring (ringRemoveAtoms rgs ring scafMol).1
      (ringRemoveAtoms rgs ring scafMol).2).2.bonds = scafMol.bonds :=
    hrb_bonds.trans hra_bonds
  constructor
  · obtain ⟨bs, hbs, hbsidx⟩ := hwf.2.2.2.2.1 ring hring s hsbix
    have hbsE2 : bs ∈ (ringRemoveBonds rgs ring
        (ringRemoveAtoms rgs ring scafMol).1
        (ringRemoveAtoms rgs ring scafMol).2).2.bonds := by
      rw [hE2]
      exact hbs
    unfold applyScheme4
    rw [if_pos ⟨rfl, hlen⟩]
    simp only []
    rw [if_pos hhet, hshared]
    simp only []
    unfold setBondType
    refine ⟨_, List.mem_map_of_mem _ hbsE2, ?_, ?_⟩
    · rw [if_pos (by simp [hbsidx])]
      exact hbsidx
    · rw [if_pos (by simp [hbsidx])]
  · intro b hb hbidx
    have hend := shared_bond_endpoints scafMol.bonds rgs hwf b hb
      (by rw [hbidx]; exact hs2)
    refine ⟨?_, ?_, ?_⟩
    · intro hmem
      have := hra_atoms b.beginAtomIdx hmem
      omega
    · intro hmem
      have := hra_atoms b.endAtomIdx hmem
      omega
    · intro pr hpr
      obtain ⟨c, hcmem, hccount, hpr_eq, _, _⟩ := hrb_pairs pr hpr
      have hcS : c ∈ scafMol.bonds := by
        rw [← hra_bonds]
        exact hcmem
      have hbc : b ≠ c := by
        intro he
        rw [← he, hbidx] at hccount
        omega
      have hsymm : Symmetric (fun b1 b2 : Bond => ¬ sameEnds b1 b2) :=
        fun x y hxy hyx => hxy (sameEnds_symm y x hyx)
      have hnsame : ¬ sameEnds b c := hwf.2.1.forall hsymm hb hcS hbc
      constructor
      · intro he
        rw [hpr_eq] at he
        have h1 : c.beginAtomIdx = b.beginAtomIdx := congrArg Prod.fst he
        have h2 : c.endAtomIdx = b.endAtomIdx := congrArg Prod.snd he
        exact hnsame (Or.inl ⟨h1.symm, h2.symm⟩)
      · intro he
        rw [hpr_eq] at he
        have h1 : c.beginAtomIdx = b.endAtomIdx := congrArg Prod.fst he
        have h2 : c.endAtomIdx = b.beginAtomIdx := congrArg Prod.snd he
        exact hnsame (Or.inr ⟨h2.symm, h1.symm⟩)

theorem claim_C6_witness :
    ∃ b ∈ (applyScheme4 true epoxRings epoxRing epoxMol
        (ringRemoveBonds epoxRings epoxRing
          (ringRemoveAtoms epoxRings epoxRing epoxMol).1
          (ringRemoveAtoms epoxRings epoxRing epoxMol).2).2).bonds,
      b.idx = 0 ∧ b.bondType = 2 :=
  (claim_C6_scheme4 epoxRings epoxMol epoxRing 0 (by decide) (by decide)
    (by decide) (by decide) (by decide)).1
